import Mathlib

/-!
# qaac: esds magic cookie parsing, AudioSpecificConfig decoding, ADTS headers

A shallow embedding of `src/sink.cpp` and `src/composite.h`:

* `getDescripterHeader`  (sink.cpp 10-24)
* `parseMagicCookieAAC`  (sink.cpp 26-83)
* `parseDecSpecificConfig` (sink.cpp 85-107)
* the 7 header bytes built by `ADTSSink::writeSamples` (sink.cpp 193-206)
* `CompositeSource::addSource`, `length`, `readSamples` (composite.h 26-56)

Conventions.  A `std::vector<uint8_t>` is a `List Nat` whose elements are
bytes (`< 256`); theorems that depend on that range say so.  A pointer into a
vector is the offset (a `Nat`) from the vector's first element; offsets are
not reduced modulo the address width.  `uint32_t`/`unsigned` arithmetic is
reduced modulo `2^32`, `size_t` arithmetic modulo `2^64`, a store into an
`unsigned char` modulo `256`.  A read at an offset outside the vector is
undefined behaviour in C++; the embedding makes it the outcome `outOfBounds`.
-/

set_option linter.unusedVariables false

namespace Qaac

/-- How a call ends: a normal return, a thrown `std::runtime_error`, a read
outside the vector being read (undefined behaviour in the source), or the
iteration bound of the embedded loop being reached. -/
inductive Outcome (α : Type) where
  | returned (value : α)
  | thrown (what : String)
  | outOfBounds
  | fuelExhausted
  deriving DecidableEq, Repr

/-- Sequencing of two steps: the second runs only when the first returns. -/
def Outcome.bind {α β : Type} (x : Outcome α) (f : α → Outcome β) : Outcome β :=
  match x with
  | .returned a => f a
  | .thrown w => .thrown w
  | .outOfBounds => .outOfBounds
  | .fuelExhausted => .fuelExhausted

instance : Monad Outcome where
  pure := Outcome.returned
  bind := Outcome.bind

/-- The read `v[i]` of a vector or array element. -/
def rd (v : List Nat) (i : Nat) : Outcome Nat :=
  match v.get? i with
  | some b => .returned b
  | none => .outOfBounds

/-- Every element of the vector is a `uint8_t` value. -/
def IsBytes (v : List Nat) : Prop := ∀ b ∈ v, b < 256

instance (v : List Nat) : Decidable (IsBytes v) := by
  unfold IsBytes; infer_instance

/-! ## getDescripterHeader -/

/-- What `getDescripterHeader` leaves behind when it returns `true`: the tag,
the size and the advanced cursor `*p`. -/
structure DescripterHeader where
  tag : Nat
  size : Nat
  cursor : Nat
  deriving DecidableEq, Repr

/-- The loop `while (*p < end) { n = *(*p)++; *size = (*size << 7) | (n & 0x7f);
if (!(n & 0x80)) return true; }` over the bytes from the cursor to `end`;
`none` is the fall-through to `return false`. -/
def sizeLoop : List Nat → Nat → Nat → Option (Nat × Nat)
  | [], _, _ => none
  | n :: rest, p, size =>
    let size1 := ((size <<< 7) % 2 ^ 32) ||| (n &&& 0x7f)
    if n &&& 0x80 = 0 then some (size1, p + 1) else sizeLoop rest (p + 1) size1

/-- `getDescripterHeader(&p, end, &tag, &size)` on the buffer `buf` whose end
is `end`; `none` is the result `false`. -/
def getDescripterHeader (buf : List Nat) (p : Nat) : Option DescripterHeader :=
  match buf.drop p with
  | [] => none
  | tag :: rest =>
    match sizeLoop rest (p + 1) 0 with
    | none => none
    | some (size, q) => some ⟨tag, size, q⟩

/-! ## parseMagicCookieAAC -/

/-- The message of the `std::runtime_error` thrown after the scan loop. -/
def malformedCookie : String := "Magic cookie format is different from expected!!"

/-- The `while (getDescripterHeader(&p, end, &tag, &size)) switch (tag) ...`
loop of `parseMagicCookieAAC`, started with the cursor at offset `p`, for at
most `fuel` calls of `getDescripterHeader`. -/
def scanLoop (cookie : List Nat) : Nat → Nat → Outcome (List Nat)
  | 0, _ => .fuelExhausted
  | fuel + 1, p =>
    match getDescripterHeader cookie p with
    | none => .thrown malformedCookie
    | some h =>
      if h.tag = 3 then scanLoop cookie fuel (h.cursor + 3)
      else if h.tag = 4 then scanLoop cookie fuel (h.cursor + 13)
      else if h.tag = 5 then
        -- std::vector<uint8_t> vec(size); std::memcpy(&vec[0], p, size);
        if h.cursor + h.size ≤ cookie.length then
          .returned ((cookie.drop h.cursor).take h.size)
        else .outOfBounds
      else scanLoop cookie fuel (h.cursor + h.size)

/-- `parseMagicCookieAAC(cookie, decSpecificConfig)`: the returned value is the
content of `*decSpecificConfig` afterwards.  Its previous content is swapped
into the local `vec` and destroyed, and is untouched when the call throws.
Every call of `getDescripterHeader` that returns `true` moves the cursor
forward, so `cookie.length + 1` calls are enough. -/
def parseMagicCookieAAC (cookie : List Nat) (decSpecificConfig : List Nat) :
    Outcome (List Nat) :=
  scanLoop cookie (cookie.length + 1) 0

/-! ## parseDecSpecificConfig -/

/-- The three values `parseDecSpecificConfig` stores through its pointers. -/
structure DecodedAudioConfig where
  sampling_rate_index : Nat
  sampling_rate : Nat
  channel_config : Nat
  deriving DecidableEq, Repr

/-- The `static const unsigned tab[]` of `parseDecSpecificConfig`. -/
def tab : List Nat :=
  [96000, 88200, 64000, 48000, 44100, 32000, 24000, 22050,
   16000, 12000, 11025, 8000, 7350, 0, 0, 0]

/-- `parseDecSpecificConfig(config, &sampling_rate_index, &sampling_rate,
&channel_config)`; `p` is the offset of the pointer `p` from `&config[0]`. -/
def parseDecSpecificConfig (config : List Nat) : Outcome DecodedAudioConfig := do
  let p := 0
  let b0 ← rd config (p + 0)
  let objtype := b0 >>> 3
  let b0 ← rd config (p + 0)
  let b1 ← rd config (p + 1)
  let index := ((b0 &&& 7) <<< 1) ||| (b1 >>> 7)
  if index = 0xf then
    let b1 ← rd config (p + 1)
    let b2 ← rd config (p + 2)
    let b3 ← rd config (p + 3)
    let b4 ← rd config (p + 4)
    let rate := ((b1 &&& 0x7f) <<< 17) ||| (b2 <<< 9) ||| (b3 <<< 1) ||| (b4 >>> 7)
    let p := p + 3
    let c ← rd config (p + 1)
    let chconfig := (c >>> 3) &&& 0xf
    pure ⟨index, rate, chconfig⟩
  else
    let rate ← rd tab index
    let c ← rd config (p + 1)
    let chconfig := (c >>> 3) &&& 0xf
    pure ⟨index, rate, chconfig⟩

/-! ## ADTSSink::writeSamples -/

/-- The array `adts` of `ADTSSink::writeSamples` at the moment it is handed to
`fwrite`, for the sink fields `m_sample_rate_index`, `m_channel_config` and the
argument `length`. -/
def adtsHeader (m_sample_rate_index m_channel_config length : Nat) : List Nat :=
  let profile := 1
  let len := (length + 7) % 2 ^ 64
  let a2 := 0x00
  let a3 := 0x00
  let a4 := 0x00
  let a5 := 0x1f
  let a2 := (a2 ||| ((profile <<< 6) % 2 ^ 32)) % 256
  let a2 := (a2 ||| ((m_sample_rate_index <<< 2) % 2 ^ 32)) % 256
  let a2 := (a2 ||| ((m_channel_config &&& 4) >>> 2)) % 256
  let a3 := (a3 ||| (((m_channel_config &&& 3) <<< 6) % 2 ^ 32)) % 256
  let a3 := (a3 ||| (len >>> 11)) % 256
  let a4 := (a4 ||| ((len >>> 3) &&& 0xff)) % 256
  let a5 := (a5 ||| (((len &&& 7) <<< 5) % 2 ^ 64)) % 256
  [0xff, 0xf1, a2, a3, a4, a5, 0xfc]

/-- The bytes `ADTSSink::writeSamples(data, length, nsamples)` hands to the two
`fwrite` calls, in order: the header, then the `length` bytes of `data`. -/
def writeSamples (m_sample_rate_index m_channel_config : Nat) (data : List Nat) :
    List Nat :=
  adtsHeader m_sample_rate_index m_channel_config data.length ++ data


/-! ## CompositeSource (composite.h) -/

/-- Modelled from the spec: `SampleFormat` of iointer.h, which is not under
src/.  composite.h compares two formats with `!=` and calls
`bytesPerFrame()`; `tag` stands for everything else the comparison looks
at. -/
structure SampleFormat where
  tag : Nat
  bytesPerFrame : Nat
  deriving DecidableEq, Repr

/-- Modelled from the spec: a member source, an `ISource` of iointer.h, which
is not under src/.  It holds `frames`, each frame being its bytes, of which
the first `pos` have been read; `readSamples(n)` returns `min(n, remaining)`
of its next frames, as the claim on `CompositeSource` assumes.  Distinct
members are distinct objects. -/
structure ISource where
  format : SampleFormat
  frames : List (List Nat)
  pos : Nat
  deriving DecidableEq, Repr

/-- `ISource::getSampleFormat()`. -/
def ISource.getSampleFormat (s : ISource) : SampleFormat := s.format

/-- `ISource::length()`, a `uint64_t`: the number of frames of the source. -/
def ISource.length (s : ISource) : Nat := s.frames.length

/-- The frames of a member source that have not been read. -/
def ISource.remaining (s : ISource) : List (List Nat) := s.frames.drop s.pos

/-- The memory `buffer` after `bytes` are stored at byte offset `off`. -/
def writeAt (buffer : List Nat) (off : Nat) (bytes : List Nat) : List Nat :=
  buffer.take off ++ bytes ++ buffer.drop (off + bytes.length)

/-- `ISource::readSamples(buffer, nsamples)` of a member source, `buffer`
pointing `off` bytes into the caller's memory: the frames read are stored from
there on; the result is their number, the source and the memory afterwards.
A store outside the memory is `outOfBounds`. -/
def ISource.readSamples (s : ISource) (buffer : List Nat) (off nsamples : Nat) :
    Outcome (Nat × ISource × List Nat) :=
  let got := s.remaining.take nsamples
  if off + got.flatten.length ≤ buffer.length then
    .returned (got.length, { s with pos := s.pos + got.length }, writeAt buffer off got.flatten)
  else .outOfBounds

/-- The fields of `CompositeSource` that `addSource`, `length` and
`readSamples` use. -/
structure CompositeSource where
  m_sources : List ISource
  m_format : SampleFormat
  m_curpos : Nat
  deriving DecidableEq, Repr

/-- The message of the `std::runtime_error` thrown by `addSource`. -/
def differentFormat : String := "CompositeSource: can't compose different sample format"

/-- `CompositeSource::addSource(src)`: the object afterwards, and how the call
ended. -/
def CompositeSource.addSource (c : CompositeSource) (src : ISource) :
    CompositeSource × Outcome Unit :=
  if c.m_sources.length = 0 then
    let c1 := { c with m_format := src.getSampleFormat }
    ({ c1 with m_sources := c1.m_sources ++ [src] }, .returned ())
  else if c.m_format ≠ src.getSampleFormat then
    (c, .thrown differentFormat)
  else
    ({ c with m_sources := c.m_sources ++ [src] }, .returned ())

/-- `CompositeSource::length()`, a `uint64_t` sum over the sources. -/
def CompositeSource.length (c : CompositeSource) : Nat :=
  c.m_sources.foldl (fun len s => (len + s.length) % 2 ^ 64) 0

/-- `CompositeSource::readSamples(buffer, nsamples)`, `buffer` pointing `off`
bytes into the caller's memory, for at most `fuel` nested calls: the number of
frames returned, the object and the memory afterwards. -/
def CompositeSource.readSamplesAux :
    Nat → CompositeSource → List Nat → Nat → Nat → Outcome (Nat × CompositeSource × List Nat)
  | 0, _, _, _, _ => .fuelExhausted
  | fuel + 1, c, buffer, off, nsamples =>
    if c.m_curpos = c.m_sources.length then .returned (0, c, buffer)
    else
      match c.m_sources.get? c.m_curpos with
      | none => .outOfBounds
      | some src =>
        match src.readSamples buffer off nsamples with
        | .returned (rc, src1, buffer1) =>
          let c1 := { c with m_sources := c.m_sources.set c.m_curpos src1 }
          if rc = nsamples then .returned (rc, c1, buffer1)
          else if rc = 0 then
            readSamplesAux fuel { c1 with m_curpos := c1.m_curpos + 1 } buffer1 off nsamples
          else
            match readSamplesAux fuel c1 buffer1
                (off + (rc * c1.m_format.bytesPerFrame) % 2 ^ 64) (nsamples - rc) with
            | .returned (rc2, c2, buffer2) => .returned ((rc + rc2) % 2 ^ 64, c2, buffer2)
            | .thrown w => .thrown w
            | .outOfBounds => .outOfBounds
            | .fuelExhausted => .fuelExhausted
        | .thrown w => .thrown w
        | .outOfBounds => .outOfBounds
        | .fuelExhausted => .fuelExhausted

/-- `CompositeSource::readSamples(buffer, nsamples)`.  A member source is
called at most twice before the position moves past it, so twice the number of
sources from the position on, plus one, bounds the nested calls. -/
def CompositeSource.readSamples (c : CompositeSource) (buffer : List Nat)
    (off nsamples : Nat) : Outcome (Nat × CompositeSource × List Nat) :=
  CompositeSource.readSamplesAux (2 * (c.m_sources.length - c.m_curpos) + 1) c buffer off
    nsamples

/-- The frames the composite has not returned yet: those left in the sources
from the position on, in the order of the sources. -/
def CompositeSource.pending (c : CompositeSource) : List (List Nat) :=
  ((c.m_sources.drop c.m_curpos).map ISource.remaining).flatten

/-- The state in which `readSamples` is called: the position is inside the
list, every source has the format `m_format`, every frame of a source has
`bytesPerFrame()` bytes, and the sources before the position are read to the
end. -/
structure CompositeSource.Ready (c : CompositeSource) : Prop where
  curpos_le : c.m_curpos ≤ c.m_sources.length
  format_eq : ∀ s ∈ c.m_sources, s.format = c.m_format
  frame_size : ∀ s ∈ c.m_sources, ∀ f ∈ s.frames, f.length = s.format.bytesPerFrame
  before_read : ∀ s ∈ c.m_sources.take c.m_curpos, s.remaining = []

/-- Successive calls `readSamples(buffer, n)` for the `n` of a list, each with
`buffer` at offset 0 of the memory: the frame counts returned, and the object
and the memory after the last call. -/
def CompositeSource.readCalls (c : CompositeSource) (buffer : List Nat) :
    List Nat → Outcome (List Nat × CompositeSource × List Nat)
  | [] => .returned ([], c, buffer)
  | n :: ns =>
    match c.readSamples buffer 0 n with
    | .returned (rc, c1, buffer1) =>
      match CompositeSource.readCalls c1 buffer1 ns with
      | .returned (rcs, c2, buffer2) => .returned (rc :: rcs, c2, buffer2)
      | .thrown w => .thrown w
      | .outOfBounds => .outOfBounds
      | .fuelExhausted => .fuelExhausted
    | .thrown w => .thrown w
    | .outOfBounds => .outOfBounds
    | .fuelExhausted => .fuelExhausted

/-- A sequence of `addSource` calls, one for each source of the list, a call
that throws leaving the object to the next call as it was. -/
def CompositeSource.addSources (c : CompositeSource) (srcs : List ISource) : CompositeSource :=
  srcs.foldl (fun c1 src => (c1.addSource src).1) c

/-! ## Reference readings of the formats -/

/-- The value of a run of size bytes read as base 128, most significant group
first, each byte giving its low 7 bits. -/
def base128 (sizeBytes : List Nat) : Nat :=
  sizeBytes.foldl (fun acc b => acc * 128 + b % 128) 0

/-- A complete descriptor header `hdr`: the tag byte, then size bytes of which
every one but the last has its top bit set; `size` is the declared size, the
base-128 value of the size bytes as a `uint32_t`. -/
def IsHeader (hdr : List Nat) (tag size : Nat) : Prop :=
  ∃ conts last, hdr = tag :: (conts ++ [last]) ∧ (∀ c ∈ conts, c &&& 0x80 ≠ 0) ∧
    last &&& 0x80 = 0 ∧ size = base128 (conts ++ [last]) % 2 ^ 32

/-- Bit `i` of a byte string, bit 0 being the most significant bit of byte 0. -/
def bitAt (bytes : List Nat) (i : Nat) : Nat :=
  (bytes.getD (i / 8) 0 / 2 ^ (7 - i % 8)) % 2

/-- The number formed, most significant bit first, by bits `first..last`
(both included) of a byte string. -/
def bitsMSB (bytes : List Nat) (first last : Nat) : Nat :=
  (List.range (last + 1 - first)).foldl (fun acc k => 2 * acc + bitAt bytes (first + k)) 0

/-- Reference ADTS parser: `sampling_frequency_index`, bits 18..21 of the
header. -/
def adts_sampling_frequency_index (hdr : List Nat) : Nat := bitsMSB hdr 18 21

/-- Reference ADTS parser: `channel_configuration`, bits 23..25 of the header. -/
def adts_channel_configuration (hdr : List Nat) : Nat := bitsMSB hdr 23 25

/-- Reference ADTS parser: `aac_frame_length`, bits 30..42 of the header. -/
def adts_aac_frame_length (hdr : List Nat) : Nat := bitsMSB hdr 30 42

/-- The cursor offsets at which the scan loop of `parseMagicCookieAAC` calls
`getDescripterHeader`: offset 0, and the offset each dispatch branch that
stays in the loop leaves behind. -/
inductive Reached (cookie : List Nat) : Nat → Prop where
  | start : Reached cookie 0
  | esds {p : Nat} {h : DescripterHeader} : Reached cookie p →
      getDescripterHeader cookie p = some h → h.tag = 3 → Reached cookie (h.cursor + 3)
  | decConfig {p : Nat} {h : DescripterHeader} : Reached cookie p →
      getDescripterHeader cookie p = some h → h.tag = 4 → Reached cookie (h.cursor + 13)
  | other {p : Nat} {h : DescripterHeader} : Reached cookie p →
      getDescripterHeader cookie p = some h → h.tag ≠ 3 → h.tag ≠ 4 → h.tag ≠ 5 →
      Reached cookie (h.cursor + h.size)

/-! ## Bit arithmetic -/

theorem and_7 (x : Nat) : x &&& 7 = x % 8 := Nat.and_pow_two_sub_one_eq_mod x 3
theorem and_3 (x : Nat) : x &&& 3 = x % 4 := Nat.and_pow_two_sub_one_eq_mod x 2
theorem and_0x7f (x : Nat) : x &&& 0x7f = x % 128 := Nat.and_pow_two_sub_one_eq_mod x 7
theorem and_0xff (x : Nat) : x &&& 0xff = x % 256 := Nat.and_pow_two_sub_one_eq_mod x 8
theorem and_0xf (x : Nat) : x &&& 0xf = x % 16 := Nat.and_pow_two_sub_one_eq_mod x 4

/-- `a << i | b` is `a * 2^i + b` when `b` fits in the low `i` bits. -/
theorem shl_or (a b i : Nat) (hb : b < 2 ^ i) : (a <<< i) ||| b = a * 2 ^ i + b := by
  rw [Nat.shiftLeft_eq, Nat.mul_comm a, Nat.mul_add_lt_is_or hb]

/-- One step of the size accumulation keeps the value read so far, as a
`uint32_t`. -/
theorem size_step (v n : Nat) :
    (((v % 2 ^ 32) <<< 7) % 2 ^ 32) ||| (n &&& 0x7f) = (v * 128 + n % 128) % 2 ^ 32 := by
  rw [and_0x7f, Nat.shiftLeft_eq]
  have h : (v % 2 ^ 32 * 2 ^ 7) % 2 ^ 32 = 2 ^ 7 * ((v % 2 ^ 25)) := by omega
  rw [h, ← Nat.mul_add_lt_is_or (by omega)]
  omega

/-! ## The descriptor header reader -/

theorem sizeLoop_run (conts : List Nat) (last : Nat) (post : List Nat)
    (hc : ∀ c ∈ conts, c &&& 0x80 ≠ 0) (hl : last &&& 0x80 = 0) (p v : Nat) :
    sizeLoop (conts ++ last :: post) p (v % 2 ^ 32) =
      some ((conts ++ [last]).foldl (fun acc b => acc * 128 + b % 128) v % 2 ^ 32,
        p + conts.length + 1) := by
  induction conts generalizing p v with
  | nil =>
    show sizeLoop (last :: post) p (v % 2 ^ 32) = _
    rw [sizeLoop]
    simp only [hl, if_true, size_step]
    rfl
  | cons c cs ih =>
    have hc1 : c &&& 0x80 ≠ 0 := hc c (List.mem_cons_self _ _)
    have hcs : ∀ x ∈ cs, x &&& 0x80 ≠ 0 := fun x hx => hc x (List.mem_cons_of_mem _ hx)
    have hstep := ih hcs (p + 1) (v * 128 + c % 128)
    show sizeLoop (c :: (cs ++ last :: post)) p (v % 2 ^ 32) = _
    rw [sizeLoop]
    simp only [hc1, if_false, size_step]
    rw [hstep]
    simp only [List.cons_append, List.foldl_cons, List.length_cons]
    congr 2
    omega

theorem sizeLoop_cursor (l : List Nat) (p s s1 q : Nat)
    (h : sizeLoop l p s = some (s1, q)) : p + 1 ≤ q ∧ q ≤ p + l.length := by
  induction l generalizing p s with
  | nil => simp [sizeLoop] at h
  | cons n rest ih =>
    simp only [sizeLoop] at h
    split at h
    · simp only [Option.some.injEq, Prod.mk.injEq] at h
      simp only [List.length_cons]
      omega
    · have := ih _ _ h
      simp only [List.length_cons]
      omega

theorem sizeLoop_shift (l : List Nat) (p k s : Nat) :
    sizeLoop l (p + k) s = (sizeLoop l p s).map (fun r => (r.1, r.2 + k)) := by
  induction l generalizing p s with
  | nil => simp [sizeLoop]
  | cons n rest ih =>
    simp only [sizeLoop]
    split
    · simp only [Option.map_some', Option.some.injEq, Prod.mk.injEq, true_and]
      omega
    · have := ih (p + 1) (((s <<< 7) % 2 ^ 32) ||| (n &&& 0x7f))
      rw [← this]
      congr 1
      omega

/-- A complete header lying at the cursor is read in full. -/
theorem getDescripterHeader_isHeader (before hdr post : List Nat) (tag size : Nat)
    (h : IsHeader hdr tag size) :
    getDescripterHeader (before ++ hdr ++ post) before.length =
      some ⟨tag, size, before.length + hdr.length⟩ := by
  obtain ⟨conts, last, rfl, hc, hl, rfl⟩ := h
  have hrun := sizeLoop_run conts last post hc hl (before.length + 1) 0
  rw [Nat.zero_mod] at hrun
  have hd : (before ++ tag :: (conts ++ [last]) ++ post).drop before.length =
      tag :: (conts ++ last :: post) := by
    simp
  unfold getDescripterHeader
  rw [hd]
  simp only [hrun, base128, List.length_cons, List.length_append, List.length_singleton,
    List.length_nil]
  congr 2
  omega

/-- A header that is read starts inside the buffer and ends inside it, at
least two bytes after the cursor. -/
theorem getDescripterHeader_cursor (buf : List Nat) (p : Nat) (h : DescripterHeader)
    (hh : getDescripterHeader buf p = some h) :
    p + 2 ≤ h.cursor ∧ h.cursor ≤ buf.length := by
  unfold getDescripterHeader at hh
  have hlen : (buf.drop p).length = buf.length - p := List.length_drop p buf
  split at hh
  · simp at hh
  · rename_i tag rest hd
    rw [hd] at hlen
    simp only [List.length_cons] at hlen
    split at hh
    · simp at hh
    · rename_i s q hs
      have := sizeLoop_cursor _ _ _ _ _ hs
      simp only [Option.some.injEq] at hh
      subst hh
      simp only
      omega

/-- Reading at a cursor past bytes `before` is reading the rest at the cursor
less `before.length`. -/
theorem getDescripterHeader_shift (before rest : List Nat) (q : Nat) :
    getDescripterHeader (before ++ rest) (before.length + q) =
      (getDescripterHeader rest q).map
        (fun h => ⟨h.tag, h.size, h.cursor + before.length⟩) := by
  simp only [getDescripterHeader, List.drop_append]
  cases hd : rest.drop q with
  | nil => simp
  | cons tag tl =>
    have e : before.length + q + 1 = q + 1 + before.length := by omega
    simp only [e, sizeLoop_shift tl (q + 1) before.length 0]
    cases sizeLoop tl (q + 1) 0 with
    | none => simp
    | some r => simp

theorem IsHeader.two_le_length {hdr : List Nat} {tag size : Nat} (h : IsHeader hdr tag size) :
    2 ≤ hdr.length := by
  obtain ⟨conts, last, rfl, _, _, _⟩ := h
  simp

/-! ## The scan loop -/

theorem scanLoop_succ (cookie : List Nat) (fuel p : Nat) :
    scanLoop cookie (fuel + 1) p =
      match getDescripterHeader cookie p with
      | none => .thrown malformedCookie
      | some h =>
        if h.tag = 3 then scanLoop cookie fuel (h.cursor + 3)
        else if h.tag = 4 then scanLoop cookie fuel (h.cursor + 13)
        else if h.tag = 5 then
          if h.cursor + h.size ≤ cookie.length then
            .returned ((cookie.drop h.cursor).take h.size)
          else .outOfBounds
        else scanLoop cookie fuel (h.cursor + h.size) := rfl

/-- Any two iteration bounds that cover the bytes left after the cursor give
the same outcome. -/
theorem scanLoop_fuel (cookie : List Nat) (f g p : Nat)
    (hf1 : 1 ≤ f) (hf : cookie.length + 2 ≤ p + 2 * f)
    (hg1 : 1 ≤ g) (hg : cookie.length + 2 ≤ p + 2 * g) :
    scanLoop cookie f p = scanLoop cookie g p := by
  induction f generalizing g p with
  | zero => omega
  | succ f ih =>
    obtain ⟨g, rfl⟩ : ∃ k, g = k + 1 := ⟨g - 1, by omega⟩
    rw [scanLoop_succ, scanLoop_succ]
    cases hh : getDescripterHeader cookie p with
    | none => rfl
    | some h =>
      have hb := getDescripterHeader_cursor cookie p h hh
      simp only
      split
      · exact ih g _ (by omega) (by omega) (by omega) (by omega)
      · split
        · exact ih g _ (by omega) (by omega) (by omega) (by omega)
        · split
          · rfl
          · exact ih g _ (by omega) (by omega) (by omega) (by omega)

/-- With enough iterations the loop does not stop at the iteration bound. -/
theorem scanLoop_ne_fuelExhausted (cookie : List Nat) (f p : Nat)
    (hf1 : 1 ≤ f) (hf : cookie.length + 2 ≤ p + 2 * f) :
    scanLoop cookie f p ≠ .fuelExhausted := by
  induction f generalizing p with
  | zero => omega
  | succ f ih =>
    rw [scanLoop_succ]
    cases hh : getDescripterHeader cookie p with
    | none => simp
    | some h =>
      have hb := getDescripterHeader_cursor cookie p h hh
      simp only
      split
      · exact ih _ (by omega) (by omega)
      · split
        · exact ih _ (by omega) (by omega)
        · split
          · split <;> simp
          · exact ih _ (by omega) (by omega)

/-- Scanning from a cursor past bytes `before` is scanning the rest. -/
theorem scanLoop_shift (before rest : List Nat) (f q : Nat) :
    scanLoop (before ++ rest) f (before.length + q) = scanLoop rest f q := by
  induction f generalizing q with
  | zero => rfl
  | succ f ih =>
    rw [scanLoop_succ, scanLoop_succ, getDescripterHeader_shift]
    cases hh : getDescripterHeader rest q with
    | none => rfl
    | some h =>
      have e3 : h.cursor + before.length + 3 = before.length + (h.cursor + 3) := by omega
      have e13 : h.cursor + before.length + 13 = before.length + (h.cursor + 13) := by omega
      have es : h.cursor + before.length + h.size = before.length + (h.cursor + h.size) := by
        omega
      have ed : (before ++ rest).drop (h.cursor + before.length) = rest.drop h.cursor := by
        rw [Nat.add_comm, List.drop_append]
      simp only [Option.map_some', e3, e13, es, ih, ed, List.length_append]
      have ele : (before.length + (h.cursor + h.size) ≤ before.length + rest.length) ↔
          (h.cursor + h.size ≤ rest.length) := by omega
      simp only [ele]

/-- The first call of `getDescripterHeader` on a cookie that starts with a
complete header, and the dispatch on its tag. -/
theorem parseMagicCookieAAC_header (hdr post out : List Nat) (tag size : Nat)
    (h : IsHeader hdr tag size) :
    parseMagicCookieAAC (hdr ++ post) out =
      if tag = 3 then scanLoop (hdr ++ post) (hdr ++ post).length (hdr.length + 3)
      else if tag = 4 then scanLoop (hdr ++ post) (hdr ++ post).length (hdr.length + 13)
      else if tag = 5 then
        if hdr.length + size ≤ (hdr ++ post).length then .returned (post.take size)
        else .outOfBounds
      else scanLoop (hdr ++ post) (hdr ++ post).length (hdr.length + size) := by
  have hh := getDescripterHeader_isHeader [] hdr post tag size h
  simp only [List.nil_append, List.length_nil, Nat.zero_add] at hh
  unfold parseMagicCookieAAC
  rw [scanLoop_succ, hh]
  simp only [List.drop_left]

/-- A descriptor the dispatch steps over, followed by `rest`: the outcome is
that of `rest` alone. -/
theorem parseMagicCookieAAC_skip (hdr body rest out : List Nat) (tag size : Nat)
    (h : IsHeader hdr tag size)
    (hskip : (tag = 3 ∧ body.length = 3) ∨ (tag = 4 ∧ body.length = 13) ∨
      (tag ≠ 3 ∧ tag ≠ 4 ∧ tag ≠ 5 ∧ body.length = size)) :
    parseMagicCookieAAC (hdr ++ body ++ rest) out = parseMagicCookieAAC rest out := by
  have h2 := h.two_le_length
  have key : scanLoop (hdr ++ (body ++ rest)) (hdr ++ (body ++ rest)).length
      (hdr.length + body.length) = parseMagicCookieAAC rest out := by
    have e : hdr ++ (body ++ rest) = (hdr ++ body) ++ rest := by simp
    have e2 : hdr.length + body.length = (hdr ++ body).length + 0 := by simp
    rw [e, e2, scanLoop_shift]
    unfold parseMagicCookieAAC
    apply scanLoop_fuel
    · simp only [List.length_append]; omega
    · simp only [List.length_append]; omega
    · omega
    · omega
  rw [List.append_assoc, parseMagicCookieAAC_header hdr (body ++ rest) out tag size h]
  rcases hskip with ⟨ht, hb⟩ | ⟨ht, hb⟩ | ⟨h3, h4, h5, hb⟩
  · rw [if_pos ht, ← hb, key]
  · have h3 : tag ≠ 3 := by omega
    rw [if_neg h3, if_pos ht, ← hb, key]
  · rw [if_neg h3, if_neg h4, if_neg h5, ← hb, key]

/-- A tag-5 descriptor whose payload lies inside the cookie: the payload is
returned. -/
theorem parseMagicCookieAAC_found (hdr payload trailing out : List Nat) (n : Nat)
    (h : IsHeader hdr 5 n) (hp : payload.length = n) :
    parseMagicCookieAAC (hdr ++ payload ++ trailing) out = .returned payload := by
  rw [List.append_assoc, parseMagicCookieAAC_header hdr (payload ++ trailing) out 5 n h]
  simp [← hp]

/-! ## The bit fields of parseDecSpecificConfig -/

theorem rd_lt (v : List Nat) (i : Nat) (h : i < v.length) : rd v i = .returned (v.getD i 0) := by
  unfold rd
  rw [List.get?_eq_getElem?, List.getD_eq_getElem?_getD, List.getElem?_eq_getElem h]
  rfl

theorem rd_ge (v : List Nat) (i : Nat) (h : v.length ≤ i) : rd v i = .outOfBounds := by
  unfold rd
  rw [List.get?_eq_none.mpr h]

theorem index_lt (p0 p1 : Nat) (h1 : p1 < 256) : ((p0 &&& 7) <<< 1) ||| (p1 >>> 7) < 16 := by
  have : p1 >>> 7 < 2 ^ 1 := by rw [Nat.shiftRight_eq_div_pow]; omega
  rw [shl_or _ _ _ this, and_7, Nat.shiftRight_eq_div_pow]
  omega



theorem low7_bits (p1 : Nat) : p1 % 128 = 64 * (p1 / 64 % 2) + 32 * (p1 / 32 % 2) + 16 * (p1 / 16 % 2) +
      8 * (p1 / 8 % 2) + 4 * (p1 / 4 % 2) + 2 * (p1 / 2 % 2) + p1 % 2 := by omega

/-- The escape-path rate expression as arithmetic. -/
theorem rate_arith (p1 p2 p3 p4 : Nat)
    (h1 : p1 < 256) (h2 : p2 < 256) (h3 : p3 < 256) (h4 : p4 < 256) :
    ((p1 &&& 0x7f) <<< 17) ||| (p2 <<< 9) ||| (p3 <<< 1) ||| (p4 >>> 7) =
      (p1 % 128) * 131072 + (p2 * 512 + (p3 * 2 + p4 / 128)) := by
  have e4 : p4 >>> 7 < 2 ^ 1 := by rw [Nat.shiftRight_eq_div_pow]; omega
  have e3 : (p3 <<< 1) ||| (p4 >>> 7) = p3 * 2 + p4 / 128 := by
    rw [shl_or _ _ _ e4, Nat.shiftRight_eq_div_pow]; omega
  have e2 : (p2 <<< 9) ||| (p3 * 2 + p4 / 128) = p2 * 512 + (p3 * 2 + p4 / 128) := by
    rw [shl_or _ _ _ (by omega)]; omega
  have e1 : ((p1 &&& 0x7f) <<< 17) ||| (p2 * 512 + (p3 * 2 + p4 / 128)) =
      (p1 % 128) * 131072 + (p2 * 512 + (p3 * 2 + p4 / 128)) := by
    rw [shl_or _ _ _ (by omega), and_0x7f]; omega
  rw [Nat.lor_assoc, Nat.lor_assoc, e3, e2, e1]


theorem byte_bits (b : Nat) (h : b < 256) :
    b = 128 * (b / 128 % 2) + 64 * (b / 64 % 2) + 32 * (b / 32 % 2) + 16 * (b / 16 % 2) +
      8 * (b / 8 % 2) + 4 * (b / 4 % 2) + 2 * (b / 2 % 2) + b % 2 := by
  omega

theorem rate_bits (p0 p1 p2 p3 p4 : Nat) (rest : List Nat)
    (h1 : p1 < 256) (h2 : p2 < 256) (h3 : p3 < 256) (h4 : p4 < 256) :
    ((p1 &&& 0x7f) <<< 17) ||| (p2 <<< 9) ||| (p3 <<< 1) ||| (p4 >>> 7) =
      bitsMSB (p0 :: p1 :: p2 :: p3 :: p4 :: rest) 9 32 := by
  rw [rate_arith p1 p2 p3 p4 h1 h2 h3 h4]
  have b1 := low7_bits p1
  have b2 := byte_bits p2 h2
  have b3 := byte_bits p3 h3
  have b4 : p4 / 128 = p4 / 128 % 2 := by omega
  simp only [bitsMSB, bitAt, List.range_succ, List.range_zero, List.nil_append,
    List.singleton_append, List.foldl_cons, List.foldl_nil, List.cons_append, List.foldl_append]
  norm_num
  linarith


theorem chan_bits (p0 p1 p2 p3 p4 : Nat) (rest : List Nat) (h4 : p4 < 256) :
    (p4 >>> 3) &&& 0xf = bitsMSB (p0 :: p1 :: p2 :: p3 :: p4 :: rest) 33 36 := by
  rw [and_0xf, Nat.shiftRight_eq_div_pow]
  simp only [bitsMSB, bitAt, List.range_succ, List.range_zero, List.nil_append,
    List.singleton_append, List.foldl_cons, List.foldl_nil, List.cons_append, List.foldl_append]
  norm_num
  omega

theorem parseDecSpecificConfig_lookup (p0 p1 : Nat) (rest : List Nat) (h1 : p1 < 256)
    (hidx : ((p0 &&& 7) <<< 1) ||| (p1 >>> 7) ≠ 0xf) :
    parseDecSpecificConfig (p0 :: p1 :: rest) =
      .returned ⟨((p0 &&& 7) <<< 1) ||| (p1 >>> 7),
        tab.getD (((p0 &&& 7) <<< 1) ||| (p1 >>> 7)) 0, (p1 >>> 3) &&& 0xf⟩ := by
  have hlt : ((p0 &&& 7) <<< 1) ||| (p1 >>> 7) < tab.length := index_lt p0 p1 h1
  have ht := rd_lt tab _ hlt
  simp only [parseDecSpecificConfig, bind, Outcome.bind, pure]
  simp only [rd, List.get?, Nat.zero_add, hidx, if_false]
  simp only [rd] at ht
  simp only [ht]

theorem parseDecSpecificConfig_explicit (p0 p1 p2 p3 p4 : Nat) (rest : List Nat)
    (hidx : ((p0 &&& 7) <<< 1) ||| (p1 >>> 7) = 0xf) :
    parseDecSpecificConfig (p0 :: p1 :: p2 :: p3 :: p4 :: rest) =
      .returned ⟨0xf, ((p1 &&& 0x7f) <<< 17) ||| (p2 <<< 9) ||| (p3 <<< 1) ||| (p4 >>> 7),
        (p4 >>> 3) &&& 0xf⟩ := by
  simp only [parseDecSpecificConfig, bind, Outcome.bind, pure]
  simp only [rd, List.get?, Nat.zero_add, hidx, if_true]

/-! ## The ADTS header bytes -/

theorem adts2_val : ∀ i < 16, ∀ c < 2,
    (((0x00 ||| ((1 <<< 6) % 2 ^ 32)) % 256 ||| ((i <<< 2) % 2 ^ 32)) % 256 ||| c) % 256 =
      64 + 4 * i + c := by
  decide

theorem adts3_val : ∀ c < 4, ∀ x < 4,
    ((0x00 ||| ((c <<< 6) % 2 ^ 32)) % 256 ||| x) % 256 = 64 * c + x := by
  decide

theorem adts5_val : ∀ y < 8, (0x1f ||| ((y <<< 5) % 2 ^ 64)) % 256 = 31 + 32 * y := by
  decide

theorem chan_top_lt (ch : Nat) : (ch &&& 4) >>> 2 < 2 := by
  have : ch &&& 4 ≤ 4 := Nat.and_le_right
  rw [Nat.shiftRight_eq_div_pow]
  omega

theorem chan_top_val : ∀ ch < 8, (ch &&& 4) >>> 2 = ch / 4 := by
  decide

/-- The header for an index below 16: bytes 0, 1, 2, 5 and 6 with the bit
operations carried out. -/
theorem adtsHeader_shape (idx ch L : Nat) (hidx : idx < 16) :
    ∃ a3 a4, adtsHeader idx ch L =
      [0xff, 0xf1, 64 + 4 * idx + (ch &&& 4) >>> 2, a3, a4,
        31 + 32 * ((L + 7) % 2 ^ 64 % 8), 0xfc] := by
  simp only [adtsHeader]
  rw [adts2_val idx hidx _ (chan_top_lt ch), and_7,
    adts5_val _ (Nat.mod_lt _ (by decide))]
  exact ⟨_, _, rfl⟩

/-- The header when the index fits 4 bits, the channel configuration 3 bits
and the frame length 13 bits: all bytes with the bit operations carried out. -/
theorem adtsHeader_bytes (idx ch L : Nat) (hidx : idx < 16) (hch : ch < 8)
    (hL : L + 7 < 8192) :
    adtsHeader idx ch L =
      [0xff, 0xf1, 64 + 4 * idx + ch / 4, 64 * (ch % 4) + (L + 7) / 2048,
        (L + 7) / 8 % 256, 31 + 32 * ((L + 7) % 8), 0xfc] := by
  have hlen : (L + 7) % 2 ^ 64 = L + 7 := Nat.mod_eq_of_lt (by omega)
  have hx : (L + 7) >>> 11 < 4 := by rw [Nat.shiftRight_eq_div_pow]; omega
  simp only [adtsHeader, hlen]
  rw [adts2_val idx hidx _ (chan_top_lt ch), chan_top_val ch hch, and_7, and_3,
    adts5_val _ (Nat.mod_lt _ (by decide)), adts3_val _ (Nat.mod_lt _ (by decide)) _ hx,
    and_0xff, Nat.zero_or, Nat.mod_mod, Nat.shiftRight_eq_div_pow, Nat.shiftRight_eq_div_pow]

/-- The constant fields of a 7-byte header whose bytes 0, 1 and 6 are FF, F1
and FC, whose byte 2 has top bits 01 and whose byte 5 has low bits 11111. -/
theorem bitsMSB_fixed_fields (b0 b1 a2 a3 a4 a5 b6 : Nat) (h0 : b0 = 0xff) (h1 : b1 = 0xf1)
    (h6 : b6 = 0xfc) (e2 : a2 / 64 = 1) (l2 : a2 < 256) (e5 : a5 % 32 = 31) (l5 : a5 < 256) :
    bitsMSB [b0, b1, a2, a3, a4, a5, b6] 0 11 = 0xFFF ∧
      bitsMSB [b0, b1, a2, a3, a4, a5, b6] 12 12 = 0 ∧
      bitsMSB [b0, b1, a2, a3, a4, a5, b6] 13 14 = 0 ∧
      bitsMSB [b0, b1, a2, a3, a4, a5, b6] 15 15 = 1 ∧
      bitsMSB [b0, b1, a2, a3, a4, a5, b6] 16 17 = 1 ∧
      bitsMSB [b0, b1, a2, a3, a4, a5, b6] 43 53 = 0x7FF ∧
      bitsMSB [b0, b1, a2, a3, a4, a5, b6] 54 55 = 0 := by
  have e2b : a2 / 64 = 2 * (a2 / 128 % 2) + a2 / 64 % 2 := by omega
  have e5b : a5 % 32 = 16 * (a5 / 16 % 2) + 8 * (a5 / 8 % 2) + 4 * (a5 / 4 % 2) +
      2 * (a5 / 2 % 2) + a5 % 2 := by omega
  have e5c : a5 / 16 % 2 ≤ 1 ∧ a5 / 8 % 2 ≤ 1 ∧ a5 / 4 % 2 ≤ 1 ∧ a5 / 2 % 2 ≤ 1 ∧
      a5 % 2 ≤ 1 := by omega
  simp only [bitsMSB, bitAt, List.range_succ, List.range_zero, List.nil_append,
    List.singleton_append, List.foldl_cons, List.foldl_nil, List.cons_append,
    List.foldl_append]
  norm_num
  rw [h0, h1, h6]
  norm_num
  constructor
  · linarith [e2]
  · linarith [e5]

/-- The first 7 bytes `ADTSSink::writeSamples` writes are the header for the
length of `data`. -/
theorem writeSamples_header (idx ch : Nat) (data : List Nat) :
    (writeSamples idx ch data).take 7 = adtsHeader idx ch data.length ∧
      (writeSamples idx ch data).drop 7 = data := by
  have hl : (adtsHeader idx ch data.length).length = 7 := rfl
  unfold writeSamples
  exact ⟨List.take_left' hl, List.drop_left' hl⟩

/-! ## Cursors reached by the scan -/

theorem getDescripterHeader_past (buf : List Nat) (p : Nat) (h : buf.length ≤ p) :
    getDescripterHeader buf p = none := by
  unfold getDescripterHeader
  rw [List.drop_eq_nil_of_le h]

/-- At a reached cursor the loop is still running: the call is the loop
started there. -/
theorem reached_scan (cookie out : List Nat) (p : Nat) (hr : Reached cookie p) :
    ∀ f, cookie.length + 1 ≤ f → parseMagicCookieAAC cookie out = scanLoop cookie f p := by
  induction hr with
  | start =>
    intro f hf
    exact scanLoop_fuel cookie _ f 0 (by omega) (by omega) (by omega) (by omega)
  | esds _ hh ht ih =>
    intro f hf
    rw [ih (f + 1) (by omega), scanLoop_succ, hh]
    simp only [ht, if_true]
  | decConfig _ hh ht ih =>
    intro f hf
    rw [ih (f + 1) (by omega), scanLoop_succ, hh]
    simp [ht]
  | other _ hh h3 h4 h5 ih =>
    intro f hf
    rw [ih (f + 1) (by omega), scanLoop_succ, hh]
    simp only [h3, h4, h5, if_false]

/-- When no reached cursor holds a tag-5 header, the loop can only end in the
throw after it. -/
theorem scanLoop_no_tag5 (cookie : List Nat)
    (hno : ∀ p h, Reached cookie p → getDescripterHeader cookie p = some h → h.tag ≠ 5)
    (f p : Nat) (hr : Reached cookie p) :
    scanLoop cookie f p = .thrown malformedCookie ∨ scanLoop cookie f p = .fuelExhausted := by
  induction f generalizing p with
  | zero => exact Or.inr rfl
  | succ f ih =>
    rw [scanLoop_succ]
    cases hh : getDescripterHeader cookie p with
    | none => exact Or.inl rfl
    | some h =>
      have h5 := hno p h hr hh
      simp only
      split
      · rename_i ht
        exact ih _ (Reached.esds hr hh ht)
      · split
        · rename_i ht
          exact ih _ (Reached.decConfig hr hh ht)
        · rename_i h3 h4
          try rw [if_neg h5]
          exact ih _ (Reached.other hr hh h3 h4 h5)

theorem rd_ne_thrown (v : List Nat) (i : Nat) (w : String) : rd v i ≠ .thrown w := by
  unfold rd
  split <;> simp

theorem bind_ne_thrown {α β : Type} (x : Outcome α) (f : α → Outcome β) (w : String)
    (hx : x ≠ .thrown w) (hf : ∀ a, f a ≠ .thrown w) : x.bind f ≠ .thrown w := by
  cases x with
  | returned a => exact hf a
  | thrown v => simpa [Outcome.bind] using hx
  | outOfBounds => simp [Outcome.bind]
  | fuelExhausted => simp [Outcome.bind]

/-- `parseDecSpecificConfig` has no `throw`. -/
theorem parseDecSpecificConfig_ne_thrown (config : List Nat) (w : String) :
    parseDecSpecificConfig config ≠ .thrown w := by
  simp only [parseDecSpecificConfig, bind, pure]
  refine bind_ne_thrown _ _ w (rd_ne_thrown _ _ w) fun _ => ?_
  refine bind_ne_thrown _ _ w (rd_ne_thrown _ _ w) fun _ => ?_
  refine bind_ne_thrown _ _ w (rd_ne_thrown _ _ w) fun _ => ?_
  split
  · refine bind_ne_thrown _ _ w (rd_ne_thrown _ _ w) fun _ => ?_
    refine bind_ne_thrown _ _ w (rd_ne_thrown _ _ w) fun _ => ?_
    refine bind_ne_thrown _ _ w (rd_ne_thrown _ _ w) fun _ => ?_
    refine bind_ne_thrown _ _ w (rd_ne_thrown _ _ w) fun _ => ?_
    refine bind_ne_thrown _ _ w (rd_ne_thrown _ _ w) fun _ => ?_
    simp
  · refine bind_ne_thrown _ _ w (rd_ne_thrown _ _ w) fun _ => ?_
    refine bind_ne_thrown _ _ w (rd_ne_thrown _ _ w) fun _ => ?_
    simp

theorem parseDecSpecificConfig_short (config : List Nat) (h : config.length < 2) :
    parseDecSpecificConfig config = .outOfBounds := by
  match config, h with
  | [], _ => rfl
  | [_], _ => rfl

theorem parseDecSpecificConfig_explicit_short (p0 p1 : Nat) (rest : List Nat)
    (hidx : ((p0 &&& 7) <<< 1) ||| (p1 >>> 7) = 0xf) (h : rest.length < 3) :
    parseDecSpecificConfig (p0 :: p1 :: rest) = .outOfBounds := by
  simp only [parseDecSpecificConfig, bind, Outcome.bind, pure]
  match rest, h with
  | [], _ => simp only [rd, List.get?, Nat.zero_add, hidx, if_true]
  | [_], _ => simp only [rd, List.get?, Nat.zero_add, hidx, if_true]
  | [_, _], _ => simp only [rd, List.get?, Nat.zero_add, hidx, if_true]

/-- The reference ADTS parser on the header, when the index fits 4 bits, the
channel configuration 3 bits and the frame length 13 bits. -/
theorem adtsHeader_parse_back (idx ch L : Nat) (hidx : idx < 16) (hch : ch < 8)
    (hL : L + 7 < 8192) :
    adts_sampling_frequency_index (adtsHeader idx ch L) = idx ∧
      adts_channel_configuration (adtsHeader idx ch L) = ch ∧
      adts_aac_frame_length (adtsHeader idx ch L) = L + 7 := by
  rw [adtsHeader_bytes idx ch L hidx hch hL]
  generalize h2 : 64 + 4 * idx + ch / 4 = a2
  generalize h3 : 64 * (ch % 4) + (L + 7) / 2048 = a3
  generalize h4 : (L + 7) / 8 % 256 = a4
  generalize h5 : 31 + 32 * ((L + 7) % 8) = a5
  have e2 : a2 / 4 % 16 = idx ∧ a2 % 2 = ch / 4 := by omega
  have e2b : a2 / 4 % 16 = 8 * (a2 / 32 % 2) + 4 * (a2 / 16 % 2) + 2 * (a2 / 8 % 2) +
      a2 / 4 % 2 := by omega
  have e3 : a3 / 64 = ch % 4 ∧ a3 % 4 = (L + 7) / 2048 ∧ a3 < 256 := by omega
  have e3b : a3 / 64 = 2 * (a3 / 128 % 2) + a3 / 64 % 2 := by omega
  have e3c : a3 % 4 = 2 * (a3 / 2 % 2) + a3 % 2 := by omega
  have e4 := byte_bits a4 (by omega)
  have e5 : a5 / 32 = (L + 7) % 8 := by omega
  have e5b : a5 / 32 = 4 * (a5 / 128 % 2) + 2 * (a5 / 64 % 2) + a5 / 32 % 2 := by omega
  have eL : L + 7 = 2048 * ((L + 7) / 2048) + 8 * a4 + (L + 7) % 8 := by omega
  have ech : ch = 4 * (ch / 4) + ch % 4 := by omega
  simp only [adts_sampling_frequency_index, adts_channel_configuration,
    adts_aac_frame_length, bitsMSB, bitAt, List.range_succ, List.range_zero, List.nil_append,
    List.singleton_append, List.foldl_cons, List.foldl_nil, List.cons_append,
    List.foldl_append]
  norm_num
  refine ⟨?_, ?_, ?_⟩
  · linarith [e2.1]
  · linarith [e2.2, e3.1]
  · linarith [e3.2.1]

theorem adts2_bits : ∀ i < 16, ∀ c < 8, 0x40 ||| (i <<< 2) ||| (c >>> 2) = 64 + 4 * i + c / 4 := by
  decide

theorem adts3_bits : ∀ c < 4, ∀ x < 4, (c <<< 6) ||| x = 64 * c + x := by
  decide

theorem adts5_bits : ∀ y < 8, 0x1F ||| (y <<< 5) = 31 + 32 * y := by
  decide

/-- The header bytes in the bit operations of the ADTS layout. -/
theorem adtsHeader_layout (idx ch L : Nat) (hidx : idx < 16) (hch : ch < 8)
    (hL : L + 7 < 8192) :
    adtsHeader idx ch L =
      [0xFF, 0xF1, 0x40 ||| (idx <<< 2) ||| (ch >>> 2),
        ((ch &&& 3) <<< 6) ||| ((L + 7) >>> 11), ((L + 7) >>> 3) &&& 0xFF,
        0x1F ||| (((L + 7) &&& 7) <<< 5), 0xFC] := by
  have hx : (L + 7) >>> 11 < 4 := by rw [Nat.shiftRight_eq_div_pow]; omega
  rw [adtsHeader_bytes idx ch L hidx hch hL, adts2_bits idx hidx ch hch, and_3, and_7,
    adts3_bits _ (Nat.mod_lt _ (by decide)) _ hx, adts5_bits _ (Nat.mod_lt _ (by decide)),
    and_0xff, Nat.shiftRight_eq_div_pow, Nat.shiftRight_eq_div_pow]

/-! ## Claims -/

/-- C1: on every cookie of the esds shape (a tag-3 header with any declared
size, 3 bytes, a tag-4 header with any declared size, 13 bytes, a tag-5 header
declaring size `n`, `n` payload bytes, any trailing bytes)
`parseMagicCookieAAC` returns exactly the payload bytes, whatever
`*decSpecificConfig` held before; a second run on the same cookie, started
from the first run's result, returns the same bytes. -/
theorem parseMagicCookieAAC_esds (h3 b3 h4 b13 h5 payload trailing out : List Nat)
    (s3 s4 n : Nat)
    (H3 : IsHeader h3 3 s3) (hb3 : b3.length = 3)
    (H4 : IsHeader h4 4 s4) (hb13 : b13.length = 13)
    (H5 : IsHeader h5 5 n) (hp : payload.length = n) :
    parseMagicCookieAAC (h3 ++ b3 ++ (h4 ++ b13 ++ (h5 ++ payload ++ trailing))) out =
        .returned payload ∧
      parseMagicCookieAAC (h3 ++ b3 ++ (h4 ++ b13 ++ (h5 ++ payload ++ trailing))) payload =
        .returned payload := by
  have run : ∀ o, parseMagicCookieAAC
      (h3 ++ b3 ++ (h4 ++ b13 ++ (h5 ++ payload ++ trailing))) o = .returned payload := by
    intro o
    rw [parseMagicCookieAAC_skip h3 b3 _ o 3 s3 H3 (Or.inl ⟨rfl, hb3⟩),
      parseMagicCookieAAC_skip h4 b13 _ o 4 s4 H4 (Or.inr (Or.inl ⟨rfl, hb13⟩)),
      parseMagicCookieAAC_found h5 payload trailing o n H5 hp]
  exact ⟨run out, run payload⟩

/-- C1 at a concrete cookie: a three-byte size in the tag-3 header, a payload
of two bytes and three trailing bytes. -/
theorem parseMagicCookieAAC_esds_witness :
    IsHeader [3, 0x80, 0x80, 0x22] 3 0x22 ∧ IsHeader [4, 0x14] 4 0x14 ∧
      IsHeader [5, 2] 5 2 ∧
      parseMagicCookieAAC
        ([3, 0x80, 0x80, 0x22] ++ [0, 0, 0] ++
          ([4, 0x14] ++ [0x40, 0x15, 0, 0, 0, 0, 1, 0xf4, 0, 0, 1, 0xf4, 0] ++
            ([5, 2] ++ [0x12, 0x10] ++ [6, 1, 2]))) [] = .returned [0x12, 0x10] :=
  have H3 : IsHeader [3, 0x80, 0x80, 0x22] 3 0x22 :=
    ⟨[0x80, 0x80], 0x22, rfl, by decide, by decide, by decide⟩
  have H4 : IsHeader [4, 0x14] 4 0x14 := ⟨[], 0x14, rfl, by decide, by decide, by decide⟩
  have H5 : IsHeader [5, 2] 5 2 := ⟨[], 2, rfl, by decide, by decide, by decide⟩
  ⟨H3, H4, H5,
    (parseMagicCookieAAC_esds [3, 0x80, 0x80, 0x22] [0, 0, 0] [4, 0x14]
      [0x40, 0x15, 0, 0, 0, 0, 1, 0xf4, 0, 0, 1, 0xf4, 0] [5, 2] [0x12, 0x10] [6, 1, 2] []
      0x22 0x14 2 H3 rfl H4 rfl H5 rfl).1⟩

/-- C2: on every payload of at least 2 bytes whose samplingFrequencyIndex
`((p[0] & 7) << 1) | (p[1] >> 7)` is not 0xF, `parseDecSpecificConfig` returns
that index, the entry of `tab` at that index and the channel configuration
`(p[1] >> 3) & 0xF`; the index is inside `tab`, whose entries 0..12 are 96000,
88200, 64000, 48000, 44100, 32000, 24000, 22050, 16000, 12000, 11025, 8000,
7350; and `{0x12, 0x10}` decodes to index 4, rate 44100, channels 2. -/
theorem parseDecSpecificConfig_table (p0 p1 : Nat) (rest : List Nat)
    (hb : IsBytes (p0 :: p1 :: rest))
    (hidx : ((p0 &&& 7) <<< 1) ||| (p1 >>> 7) ≠ 0xf) :
    parseDecSpecificConfig (p0 :: p1 :: rest) =
        .returned ⟨((p0 &&& 7) <<< 1) ||| (p1 >>> 7),
          tab.getD (((p0 &&& 7) <<< 1) ||| (p1 >>> 7)) 0, (p1 >>> 3) &&& 0xf⟩ ∧
      ((p0 &&& 7) <<< 1) ||| (p1 >>> 7) < tab.length ∧
      tab.take 13 = [96000, 88200, 64000, 48000, 44100, 32000, 24000, 22050,
        16000, 12000, 11025, 8000, 7350] ∧
      parseDecSpecificConfig [0x12, 0x10] = .returned ⟨4, 44100, 2⟩ := by
  have h1 : p1 < 256 := hb p1 (by simp)
  exact ⟨parseDecSpecificConfig_lookup p0 p1 rest h1 hidx, index_lt p0 p1 h1, rfl, rfl⟩

/-- C2 at the payload `{0x11, 0x90}`: index 3, rate 48000, channels 2. -/
theorem parseDecSpecificConfig_table_witness :
    IsBytes [0x11, 0x90] ∧
      parseDecSpecificConfig [0x11, 0x90] = .returned ⟨3, 48000, 2⟩ :=
  ⟨by decide, (parseDecSpecificConfig_table 0x11 0x90 [] (by decide) (by decide)).1⟩

/-- C3: on every payload of at least 5 bytes whose samplingFrequencyIndex is
0xF, `parseDecSpecificConfig` returns index 15, the sampling rate formed
MSB-first by payload bits 9..32 (a 24-bit number: the low 7 bits of byte 1,
all of bytes 2 and 3, the top bit of byte 4) and the channel configuration
formed by the 4 bits that follow, bits 33..36, which is `(p[4] >> 3) & 0xF`:
the byte read is 3 positions after the `p[1]` of the non-escape case. -/
theorem parseDecSpecificConfig_escape (p0 p1 p2 p3 p4 : Nat) (rest : List Nat)
    (hb : IsBytes (p0 :: p1 :: p2 :: p3 :: p4 :: rest))
    (hidx : ((p0 &&& 7) <<< 1) ||| (p1 >>> 7) = 0xf) :
    parseDecSpecificConfig (p0 :: p1 :: p2 :: p3 :: p4 :: rest) =
        .returned ⟨15, bitsMSB (p0 :: p1 :: p2 :: p3 :: p4 :: rest) 9 32,
          bitsMSB (p0 :: p1 :: p2 :: p3 :: p4 :: rest) 33 36⟩ ∧
      bitsMSB (p0 :: p1 :: p2 :: p3 :: p4 :: rest) 9 32 < 2 ^ 24 ∧
      bitsMSB (p0 :: p1 :: p2 :: p3 :: p4 :: rest) 9 32 =
        p1 % 128 * 131072 + (p2 * 512 + (p3 * 2 + p4 / 128)) ∧
      bitsMSB (p0 :: p1 :: p2 :: p3 :: p4 :: rest) 33 36 = (p4 >>> 3) &&& 0xf := by
  have h1 : p1 < 256 := hb p1 (by simp)
  have h2 : p2 < 256 := hb p2 (by simp)
  have h3 : p3 < 256 := hb p3 (by simp)
  have h4 : p4 < 256 := hb p4 (by simp)
  have hr := rate_bits p0 p1 p2 p3 p4 rest h1 h2 h3 h4
  have hc := chan_bits p0 p1 p2 p3 p4 rest h4
  have ha := rate_arith p1 p2 p3 p4 h1 h2 h3 h4
  refine ⟨?_, ?_, ?_, hc.symm⟩
  · rw [parseDecSpecificConfig_explicit p0 p1 p2 p3 p4 rest hidx, hr, hc]
  · rw [← hr, ha]
    omega
  · rw [← hr, ha]

/-- C3 at the payload `{0x17, 0x80, 0x56, 0x22, 0x10}`: rate 44100 (0x00AC44),
channels 2. -/
theorem parseDecSpecificConfig_escape_witness :
    IsBytes [0x17, 0x80, 0x56, 0x22, 0x10] ∧
      parseDecSpecificConfig [0x17, 0x80, 0x56, 0x22, 0x10] =
        .returned ⟨15, bitsMSB [0x17, 0x80, 0x56, 0x22, 0x10] 9 32,
          bitsMSB [0x17, 0x80, 0x56, 0x22, 0x10] 33 36⟩ ∧
      bitsMSB [0x17, 0x80, 0x56, 0x22, 0x10] 9 32 = 44100 ∧
      bitsMSB [0x17, 0x80, 0x56, 0x22, 0x10] 33 36 = 2 :=
  ⟨by decide,
    (parseDecSpecificConfig_escape 0x17 0x80 0x56 0x22 0x10 [] (by decide) (by decide)).1,
    by decide, by decide⟩

/-- C4 (as amended): for every sampling_rate_index below 16, every
channel_config below 8 and every payload length `L` with `L + 7 < 8192`, the
header built by `ADTSSink::writeSamples`, read by the reference ADTS parser,
yields sampling_frequency_index equal to sampling_rate_index,
channel_configuration equal to channel_config and aac_frame_length equal to
`L + 7`. -/
theorem adtsHeader_roundtrip (idx ch L : Nat) (hidx : idx < 16) (hch : ch < 8)
    (hL : L + 7 < 8192) :
    adts_sampling_frequency_index (adtsHeader idx ch L) = idx ∧
      adts_channel_configuration (adtsHeader idx ch L) = ch ∧
      adts_aac_frame_length (adtsHeader idx ch L) = L + 7 := by
  exact adtsHeader_parse_back idx ch L hidx hch hL

/-- C4 (as amended) at index 4, channel configuration 2, payload length 200:
the parser recovers 4, 2 and 207. -/
theorem adtsHeader_roundtrip_witness :
    adts_sampling_frequency_index (adtsHeader 4 2 200) = 4 ∧
      adts_channel_configuration (adtsHeader 4 2 200) = 2 ∧
      adts_aac_frame_length (adtsHeader 4 2 200) = 200 + 7 :=
  adtsHeader_roundtrip 4 2 200 (by decide) (by decide) (by decide)

/-- C4 as stated fails: channel configuration 8 (4 bits, as decoded from the
payload `{0x12, 0x40}`) is read back as 0, and the payload length 8185 is read
back as frame length 0, not 8192. -/
theorem adtsHeader_roundtrip_counterexample :
    parseDecSpecificConfig [0x12, 0x40] = .returned ⟨4, 44100, 8⟩ ∧
      adts_channel_configuration (adtsHeader 4 8 200) = 0 ∧
      adts_aac_frame_length (adtsHeader 4 2 8185) = 0 := by
  decide

/-- C5: for every sampling_rate_index in 0..15, every channel_config and every
payload length, the header built by `ADTSSink::writeSamples` has syncword
(bits 0..11) 0xFFF, ID (bit 12) 0, layer (bits 13..14) 0, protection_absent
(bit 15) 1, profile (bits 16..17) 01, adts_buffer_fullness (bits 43..53) 0x7FF
and number_of_raw_data_blocks_in_frame (bits 54..55) 0; it has 7 bytes, bytes
0, 1 and 6 are 0xFF, 0xF1, 0xFC, the top two bits of byte 2 are 01 and the low
five bits of byte 5 are 11111. -/
theorem adtsHeader_fixed_fields (idx ch L : Nat) (hidx : idx < 16) :
    bitsMSB (adtsHeader idx ch L) 0 11 = 0xFFF ∧
      bitsMSB (adtsHeader idx ch L) 12 12 = 0 ∧
      bitsMSB (adtsHeader idx ch L) 13 14 = 0 ∧
      bitsMSB (adtsHeader idx ch L) 15 15 = 1 ∧
      bitsMSB (adtsHeader idx ch L) 16 17 = 1 ∧
      bitsMSB (adtsHeader idx ch L) 43 53 = 0x7FF ∧
      bitsMSB (adtsHeader idx ch L) 54 55 = 0 ∧
      (adtsHeader idx ch L).length = 7 ∧
      (adtsHeader idx ch L).get? 0 = some 0xFF ∧
      (adtsHeader idx ch L).get? 1 = some 0xF1 ∧
      (adtsHeader idx ch L).get? 6 = some 0xFC ∧
      (∃ b2, (adtsHeader idx ch L).get? 2 = some b2 ∧ b2 < 256 ∧ b2 / 64 = 1) ∧
      (∃ b5, (adtsHeader idx ch L).get? 5 = some b5 ∧ b5 < 256 ∧ b5 % 32 = 31) := by
  obtain ⟨a3, a4, h⟩ := adtsHeader_shape idx ch L hidx
  rw [h]
  have hc := chan_top_lt ch
  have e2 : (64 + 4 * idx + (ch &&& 4) >>> 2) / 64 = 1 ∧
      64 + 4 * idx + (ch &&& 4) >>> 2 < 256 := by omega
  have e5 : (31 + 32 * ((L + 7) % 2 ^ 64 % 8)) % 32 = 31 ∧
      31 + 32 * ((L + 7) % 2 ^ 64 % 8) < 256 := by omega
  have hf := bitsMSB_fixed_fields 0xff 0xf1 _ a3 a4 _ 0xfc rfl rfl rfl e2.1 e2.2 e5.1 e5.2
  refine ⟨hf.1, hf.2.1, hf.2.2.1, hf.2.2.2.1, hf.2.2.2.2.1, hf.2.2.2.2.2.1, hf.2.2.2.2.2.2,
    rfl, rfl, rfl, rfl, ⟨_, rfl, e2.2, e2.1⟩, ⟨_, rfl, e5.2, e5.1⟩⟩

/-- C5 at index 15 (the escape index), channel configuration 15 and payload
length 100000. -/
theorem adtsHeader_fixed_fields_witness :
    bitsMSB (adtsHeader 15 15 100000) 0 11 = 0xFFF ∧
      bitsMSB (adtsHeader 15 15 100000) 16 17 = 1 ∧
      bitsMSB (adtsHeader 15 15 100000) 43 53 = 0x7FF :=
  have h := adtsHeader_fixed_fields 15 15 100000 (by decide)
  ⟨h.1, h.2.2.2.2.1, h.2.2.2.2.2.1⟩

/-- C6: on every cookie, the empty one included, whose scan never has a tag-5
header at a cursor it reaches, `parseMagicCookieAAC` throws the
malformed-cookie `std::runtime_error`; it does not return, in particular not
with an empty config. -/
theorem parseMagicCookieAAC_no_tag5 (cookie out : List Nat)
    (hno : ∀ p h, Reached cookie p → getDescripterHeader cookie p = some h → h.tag ≠ 5) :
    parseMagicCookieAAC cookie out = .thrown malformedCookie ∧
      parseMagicCookieAAC cookie out ≠ .returned [] := by
  have h : parseMagicCookieAAC cookie out = .thrown malformedCookie := by
    unfold parseMagicCookieAAC
    rcases scanLoop_no_tag5 cookie hno (cookie.length + 1) 0 Reached.start with h | h
    · exact h
    · exact absurd h (scanLoop_ne_fuelExhausted cookie _ 0 (by omega) (by omega))
  rw [h]
  exact ⟨rfl, by simp⟩

/-- C6 at the cookie `{3, 0, 1, 2, 3}`, a lone tag-3 descriptor: the scan
reaches the cursors 0 and 5 only. -/
theorem parseMagicCookieAAC_no_tag5_witness :
    parseMagicCookieAAC [3, 0, 1, 2, 3] [] = .thrown malformedCookie :=
  (parseMagicCookieAAC_no_tag5 [3, 0, 1, 2, 3] [] (by
    have h0 : getDescripterHeader [3, 0, 1, 2, 3] 0 = some ⟨3, 0, 2⟩ := by decide
    have h5 : getDescripterHeader [3, 0, 1, 2, 3] 5 = none := by decide
    have key : ∀ p, Reached [3, 0, 1, 2, 3] p → p = 0 ∨ p = 5 := by
      intro p hr
      induction hr with
      | start => exact Or.inl rfl
      | esds _ hh ht ih =>
        rcases ih with rfl | rfl
        · rw [h0] at hh
          cases hh
          exact Or.inr rfl
        · rw [h5] at hh
          cases hh
      | decConfig _ hh ht ih =>
        rcases ih with rfl | rfl
        · rw [h0] at hh
          cases hh
          cases ht
        · rw [h5] at hh
          cases hh
      | other _ hh h3 _ _ ih =>
        rcases ih with rfl | rfl
        · rw [h0] at hh
          cases hh
          exact absurd rfl h3
        · rw [h5] at hh
          cases hh
    intro p h hr hh
    rcases key p hr with rfl | rfl
    · rw [h0] at hh
      cases hh
      decide
    · rw [h5] at hh
      cases hh)).1

/-- C7 (as amended): when a descriptor reached by the scan has a tag other
than 3, 4 and 5 and declares a size larger than the number of bytes that
remain after its header, `parseMagicCookieAAC` throws the malformed-cookie
`std::runtime_error`. -/
theorem parseMagicCookieAAC_oversize (cookie out : List Nat) (p : Nat) (h : DescripterHeader)
    (hr : Reached cookie p) (hh : getDescripterHeader cookie p = some h)
    (h3 : h.tag ≠ 3) (h4 : h.tag ≠ 4) (h5 : h.tag ≠ 5)
    (hbig : cookie.length - h.cursor < h.size) :
    parseMagicCookieAAC cookie out = .thrown malformedCookie := by
  have hb := getDescripterHeader_cursor cookie p h hh
  rw [reached_scan cookie out p hr (cookie.length + 2) (by omega), scanLoop_succ, hh]
  simp only [h3, h4, h5, if_false]
  rw [scanLoop_succ, getDescripterHeader_past cookie _ (by omega)]

/-- C7 (as amended) at the cookie `{6, 5, 1, 2}`: tag 6 declares 5 bytes, 2
remain. -/
theorem parseMagicCookieAAC_oversize_witness :
    getDescripterHeader [6, 5, 1, 2] 0 = some ⟨6, 5, 2⟩ ∧
      parseMagicCookieAAC [6, 5, 1, 2] [] = .thrown malformedCookie :=
  ⟨by decide,
    parseMagicCookieAAC_oversize [6, 5, 1, 2] [] 0 ⟨6, 5, 2⟩ Reached.start (by decide)
      (by decide) (by decide) (by decide) (by decide)⟩

/-- C7 as stated fails: in the cookie `{3, 10, 0, 0, 0, 5, 1, 0x42}` the tag-3
descriptor at cursor 0 declares 10 bytes where 6 remain after its header, and
the call returns the config `{0x42}`. -/
theorem parseMagicCookieAAC_oversize_counterexample :
    getDescripterHeader [3, 10, 0, 0, 0, 5, 1, 0x42] 0 = some ⟨3, 10, 2⟩ ∧
      [3, 10, 0, 0, 0, 5, 1, 0x42].length - 2 < 10 ∧
      parseMagicCookieAAC [3, 10, 0, 0, 0, 5, 1, 0x42] [] = .returned [0x42] := by
  decide

/-- C8 (as amended): on every payload of at least 2 bytes whose
samplingFrequencyIndex is 13 or 14, `parseDecSpecificConfig` returns that
index, sampling rate 0 and the channel configuration `(p[1] >> 3) & 0xF`; and
on no payload at all does it throw. -/
theorem parseDecSpecificConfig_reserved (p0 p1 : Nat) (rest : List Nat)
    (hb : IsBytes (p0 :: p1 :: rest))
    (hidx : ((p0 &&& 7) <<< 1) ||| (p1 >>> 7) = 13 ∨ ((p0 &&& 7) <<< 1) ||| (p1 >>> 7) = 14) :
    parseDecSpecificConfig (p0 :: p1 :: rest) =
        .returned ⟨((p0 &&& 7) <<< 1) ||| (p1 >>> 7), 0, (p1 >>> 3) &&& 0xf⟩ ∧
      ∀ config w, parseDecSpecificConfig config ≠ .thrown w := by
  have h1 : p1 < 256 := hb p1 (by simp)
  refine ⟨?_, parseDecSpecificConfig_ne_thrown⟩
  rw [parseDecSpecificConfig_lookup p0 p1 rest h1 (by omega)]
  rcases hidx with h | h <;> rw [h] <;> rfl

/-- C8 (as amended) at the payload `{0x17, 0x10}`: index 14. -/
theorem parseDecSpecificConfig_reserved_witness :
    IsBytes [0x17, 0x10] ∧ parseDecSpecificConfig [0x17, 0x10] = .returned ⟨14, 0, 2⟩ :=
  ⟨by decide,
    (parseDecSpecificConfig_reserved 0x17 0x10 [] (by decide) (Or.inr (by decide))).1⟩

/-- C8 as stated fails: the payload `{0x16, 0x90}` has index 13 and the
payload `{0x17, 0x80, 0x56, 0x22, 0x10}` has index 15; both calls return a
config. -/
theorem parseDecSpecificConfig_reserved_counterexample :
    parseDecSpecificConfig [0x16, 0x90] = .returned ⟨13, 0, 2⟩ ∧
      parseDecSpecificConfig [0x17, 0x80, 0x56, 0x22, 0x10] = .returned ⟨15, 44100, 2⟩ := by
  decide

/-- C9 (as amended): `parseDecSpecificConfig` checks no length and reports no
error.  On every payload of at least 2 bytes whose samplingFrequencyIndex is
not 0xF, and on every payload of at least 5 bytes whose index is 0xF, every
byte it reads lies inside the payload and it returns; on every payload shorter
than 2 bytes, and every payload with index 0xF shorter than 5 bytes, it reads
at an index outside the payload. -/
theorem parseDecSpecificConfig_reads (config : List Nat) (hb : IsBytes config) :
    (config.length < 2 → parseDecSpecificConfig config = .outOfBounds) ∧
      ∀ p0 p1 rest, config = p0 :: p1 :: rest →
        (((p0 &&& 7) <<< 1) ||| (p1 >>> 7) ≠ 0xf →
          ∃ r, parseDecSpecificConfig config = .returned r) ∧
        (((p0 &&& 7) <<< 1) ||| (p1 >>> 7) = 0xf → 5 ≤ config.length →
          ∃ r, parseDecSpecificConfig config = .returned r) ∧
        (((p0 &&& 7) <<< 1) ||| (p1 >>> 7) = 0xf → config.length < 5 →
          parseDecSpecificConfig config = .outOfBounds) := by
  refine ⟨parseDecSpecificConfig_short config, ?_⟩
  intro p0 p1 rest hc
  subst hc
  have h1 : p1 < 256 := hb p1 (by simp)
  refine ⟨fun hidx => ⟨_, parseDecSpecificConfig_lookup p0 p1 rest h1 hidx⟩, ?_, ?_⟩
  · intro hidx hlen
    match rest, hlen with
    | p2 :: p3 :: p4 :: tl, _ => exact ⟨_, parseDecSpecificConfig_explicit p0 p1 p2 p3 p4 tl hidx⟩
  · intro hidx hlen
    exact parseDecSpecificConfig_explicit_short p0 p1 rest hidx
      (by simp only [List.length_cons] at hlen; omega)

/-- C9 (as amended) at the payload `{0x12, 0x10}`: the call returns. -/
theorem parseDecSpecificConfig_reads_witness :
    IsBytes [0x12, 0x10] ∧ ∃ r, parseDecSpecificConfig [0x12, 0x10] = .returned r :=
  ⟨by decide,
    ((parseDecSpecificConfig_reads [0x12, 0x10] (by decide)).2 0x12 0x10 [] rfl).1
      (by decide)⟩

/-- C9 as stated fails: on the 1-byte payload `{0x12}` the read of `p[1]`, and
on the 4-byte escape payload `{0x17, 0x80, 0x00, 0xAC}` the read of `p[4]`, is
outside the payload, and no error is reported. -/
theorem parseDecSpecificConfig_reads_counterexample :
    parseDecSpecificConfig [0x12] = .outOfBounds ∧
      parseDecSpecificConfig [0x17, 0x80, 0x00, 0xAC] = .outOfBounds := by
  decide

/-- C10 (as amended): for a payload whose samplingFrequencyIndex is 0xF and
whose rate bytes are 0x00 (the low 7 bits of byte 1), 0x00, 0xAC, 0x44,
`parseDecSpecificConfig` returns sampling rate 344; it returns 44100 when the
rate bytes are 0x00 (the low 7 bits of byte 1), 0x56, 0x22 and a byte 4 whose
top bit is clear, here 0x00. -/
theorem parseDecSpecificConfig_escape_bytes (p0 p1 : Nat) (rest : List Nat)
    (hidx : ((p0 &&& 7) <<< 1) ||| (p1 >>> 7) = 0xf) (hlow : p1 &&& 0x7f = 0x00) :
    parseDecSpecificConfig (p0 :: p1 :: 0x00 :: 0xAC :: 0x44 :: rest) =
        .returned ⟨15, 344, 8⟩ ∧
      parseDecSpecificConfig (p0 :: p1 :: 0x56 :: 0x22 :: 0x00 :: rest) =
        .returned ⟨15, 44100, 0⟩ := by
  rw [parseDecSpecificConfig_explicit p0 p1 _ _ _ rest hidx,
    parseDecSpecificConfig_explicit p0 p1 _ _ _ rest hidx, hlow]
  exact ⟨rfl, rfl⟩

/-- C10 (as amended) at the payload `{0x17, 0x80, 0x00, 0xAC, 0x44}`. -/
theorem parseDecSpecificConfig_escape_bytes_witness :
    parseDecSpecificConfig [0x17, 0x80, 0x00, 0xAC, 0x44] = .returned ⟨15, 344, 8⟩ :=
  (parseDecSpecificConfig_escape_bytes 0x17 0x80 [] (by decide) (by decide)).1

/-- C10 as stated fails: with index 0xF and rate bytes 0x00, 0x00, 0xAC, 0x44
(byte 1 is 0x80: its top bit is the last index bit, its low 7 bits are 0x00)
the sampling rate returned is 344, not 44100; with byte 1 equal to 0x00 the
index is 14, not 0xF. -/
theorem parseDecSpecificConfig_escape_bytes_counterexample :
    parseDecSpecificConfig [0x17, 0x80, 0x00, 0xAC, 0x44] = .returned ⟨0xf, 344, 8⟩ ∧
      (344 : Nat) ≠ 44100 ∧
      parseDecSpecificConfig [0x17, 0x00, 0x00, 0xAC, 0x44] = .returned ⟨14, 0, 0⟩ := by
  decide


/-! ## Further lemmas on the descriptor reader and the scan -/

/-- The size loop falls through exactly when no byte it sees has its top bit
clear. -/
theorem sizeLoop_eq_none (l : List Nat) (p s : Nat) :
    sizeLoop l p s = none ↔ ∀ b ∈ l, b &&& 0x80 ≠ 0 := by
  induction l generalizing p s with
  | nil => simp [sizeLoop]
  | cons n rest ih =>
    rw [sizeLoop]
    by_cases hn : n &&& 0x80 = 0
    · simp only [hn, if_true]
      constructor
      · intro h
        cases h
      · intro h
        exact absurd hn (h n (List.mem_cons_self _ _))
    · simp only [hn, if_false, ih]
      constructor
      · intro h b hb
        rcases List.mem_cons.mp hb with rfl | hb
        · exact hn
        · exact h b hb
      · intro h b hb
        exact h b (List.mem_cons_of_mem _ hb)

/-- Bytes after the terminating size byte play no part in the size loop. -/
theorem sizeLoop_append (l t : List Nat) (p s : Nat) (r : Nat × Nat)
    (h : sizeLoop l p s = some r) : sizeLoop (l ++ t) p s = some r := by
  induction l generalizing p s with
  | nil => simp [sizeLoop] at h
  | cons n rest ih =>
    rw [sizeLoop] at h
    rw [List.cons_append, sizeLoop]
    by_cases hn : n &&& 0x80 = 0
    · simpa only [hn, if_true] using h
    · simp only [hn, if_false] at h ⊢
      exact ih _ _ h

/-- A header read inside a buffer is read the same when bytes are appended to
the buffer. -/
theorem getDescripterHeader_append (c t : List Nat) (p : Nat) (h : DescripterHeader)
    (hh : getDescripterHeader c p = some h) : getDescripterHeader (c ++ t) p = some h := by
  have hb := getDescripterHeader_cursor c p h hh
  unfold getDescripterHeader at hh ⊢
  rw [List.drop_append_of_le_length (by omega)]
  cases hd : c.drop p with
  | nil => rw [hd] at hh; simp at hh
  | cons tag rest =>
    rw [hd] at hh
    simp only [List.cons_append] at hh ⊢
    cases hs : sizeLoop rest (p + 1) 0 with
    | none => rw [hs] at hh; simp at hh
    | some r =>
      rw [hs] at hh
      rw [sizeLoop_append rest t (p + 1) 0 r hs]
      exact hh

/-- A scan that returns a config returns the same config when bytes are
appended to the cookie. -/
theorem scanLoop_append (c t cfg : List Nat) (f p : Nat)
    (h : scanLoop c f p = .returned cfg) : scanLoop (c ++ t) f p = .returned cfg := by
  induction f generalizing p with
  | zero => simp [scanLoop] at h
  | succ f ih =>
    rw [scanLoop_succ] at h ⊢
    cases hh : getDescripterHeader c p with
    | none => rw [hh] at h; simp at h
    | some hd =>
      rw [hh] at h
      rw [getDescripterHeader_append c t p hd hh]
      simp only at h ⊢
      by_cases h3 : hd.tag = 3
      · rw [if_pos h3] at h ⊢
        exact ih _ h
      · by_cases h4 : hd.tag = 4
        · rw [if_neg h3, if_pos h4] at h ⊢
          exact ih _ h
        · by_cases h5 : hd.tag = 5
          · rw [if_neg h3, if_neg h4, if_pos h5] at h ⊢
            by_cases hle : hd.cursor + hd.size ≤ c.length
            · have hle2 : hd.cursor + hd.size ≤ (c ++ t).length := by
                rw [List.length_append]; omega
              rw [if_pos hle] at h
              rw [if_pos hle2, ← h, List.drop_append_of_le_length (by omega),
                List.take_append_of_le_length (by rw [List.length_drop]; omega)]
            · rw [if_neg hle] at h
              simp at h
          · rw [if_neg h3, if_neg h4, if_neg h5] at h ⊢
            exact ih _ h

/-- Iteration bounds that cover half the bytes left after the cursor, plus
one, give the same outcome. -/
theorem scanLoop_fuel_half (cookie : List Nat) (f g p : Nat)
    (hf1 : 1 ≤ f) (hf : cookie.length + 1 ≤ p + 2 * f)
    (hg1 : 1 ≤ g) (hg : cookie.length + 1 ≤ p + 2 * g) :
    scanLoop cookie f p = scanLoop cookie g p := by
  induction f generalizing g p with
  | zero => omega
  | succ f ih =>
    obtain ⟨g, rfl⟩ : ∃ k, g = k + 1 := ⟨g - 1, by omega⟩
    rw [scanLoop_succ, scanLoop_succ]
    cases hh : getDescripterHeader cookie p with
    | none => rfl
    | some h =>
      have hb := getDescripterHeader_cursor cookie p h hh
      simp only
      split
      · exact ih g _ (by omega) (by omega) (by omega) (by omega)
      · split
        · exact ih g _ (by omega) (by omega) (by omega) (by omega)
        · split
          · rfl
          · exact ih g _ (by omega) (by omega) (by omega) (by omega)

/-- With `f` calls of `getDescripterHeader` allowed, where `2 * f` exceeds the
bytes left after the cursor, the loop does not stop at the iteration bound. -/
theorem scanLoop_ne_fuelExhausted_half (cookie : List Nat) (f p : Nat)
    (hf1 : 1 ≤ f) (hf : cookie.length + 1 ≤ p + 2 * f) :
    scanLoop cookie f p ≠ .fuelExhausted := by
  induction f generalizing p with
  | zero => omega
  | succ f ih =>
    rw [scanLoop_succ]
    cases hh : getDescripterHeader cookie p with
    | none => simp
    | some h =>
      have hb := getDescripterHeader_cursor cookie p h hh
      simp only
      split
      · exact ih _ (by omega) (by omega)
      · split
        · exact ih _ (by omega) (by omega)
        · split
          · split <;> simp
          · exact ih _ (by omega) (by omega)


/-! ## Claims on the descriptor reader, the scan and the header bytes -/

/-- C11: when the byte at the cursor `p` is a tag `t`, followed by `k` bytes
with the top bit set and one byte with the top bit clear, all inside the
buffer, `getDescripterHeader` succeeds, returns the tag `t` and the size equal
to the base-128 value (most significant group first) of the low 7 bits of
those `k + 1` bytes, as a `uint32_t`, and leaves the cursor at `p + k + 2`,
the first payload byte. -/
theorem getDescripterHeader_complete (before conts post : List Nat) (t last : Nat)
    (hc : ∀ c ∈ conts, c &&& 0x80 ≠ 0) (hl : last &&& 0x80 = 0) :
    getDescripterHeader (before ++ t :: (conts ++ [last]) ++ post) before.length =
      some ⟨t, base128 (conts ++ [last]) % 2 ^ 32, before.length + conts.length + 2⟩ := by
  have h : IsHeader (t :: (conts ++ [last])) t (base128 (conts ++ [last]) % 2 ^ 32) :=
    ⟨conts, last, rfl, hc, hl, rfl⟩
  rw [getDescripterHeader_isHeader before _ post t _ h]
  simp only [List.length_cons, List.length_append, List.length_singleton]
  congr 2

/-- C11 at the buffer `{9, 9, 3, 0x81, 0x82, 0x03, 7}` with the cursor at 2:
tag 3, size `(1 * 128 + 2) * 128 + 3 = 16643`, cursor 6. -/
theorem getDescripterHeader_complete_witness :
    getDescripterHeader ([9, 9] ++ 3 :: ([0x81, 0x82] ++ [0x03]) ++ [7]) 2 =
      some ⟨3, 16643, 6⟩ :=
  getDescripterHeader_complete [9, 9] [0x81, 0x82] [7] 3 0x03 (by decide) (by decide)

/-- C12: `getDescripterHeader` returns `false` exactly when the cursor is at or
past the end, or every byte between the tag and the end (there may be none)
has its top bit set; so it returns `true` whenever a tag byte and, after it, a
byte with the top bit clear both lie before the end. -/
theorem getDescripterHeader_eq_none (buf : List Nat) (p : Nat) :
    (getDescripterHeader buf p = none ↔
        (buf.length ≤ p ∨ ∀ b ∈ buf.drop (p + 1), b &&& 0x80 ≠ 0)) ∧
      ∀ i, p < i → i < buf.length → buf.getD i 0 &&& 0x80 = 0 →
        (getDescripterHeader buf p).isSome = true := by
  have key : getDescripterHeader buf p = none ↔
      (buf.length ≤ p ∨ ∀ b ∈ buf.drop (p + 1), b &&& 0x80 ≠ 0) := by
    unfold getDescripterHeader
    cases hd : buf.drop p with
    | nil =>
      have hle : buf.length ≤ p := List.drop_eq_nil_iff.mp hd
      exact ⟨fun _ => Or.inl hle, fun _ => rfl⟩
    | cons tag rest =>
      have hlt : p < buf.length := by
        rcases Nat.lt_or_ge p buf.length with h | h
        · exact h
        · rw [List.drop_eq_nil_of_le h] at hd
          cases hd
      have hrest : buf.drop (p + 1) = rest := by
        rw [← List.drop_drop 1 p buf, hd]
        rfl
      rw [hrest]
      dsimp only
      cases hs : sizeLoop rest (p + 1) 0 with
      | none =>
        exact ⟨fun _ => Or.inr ((sizeLoop_eq_none rest (p + 1) 0).mp hs), fun _ => rfl⟩
      | some r =>
        obtain ⟨sz, q⟩ := r
        constructor
        · intro h
          cases h
        · intro h
          rcases h with hle | hall
          · omega
          · rw [(sizeLoop_eq_none rest (p + 1) 0).mpr hall] at hs
            cases hs
  refine ⟨key, ?_⟩
  intro i hpi hi hbit
  cases hh : getDescripterHeader buf p with
  | some h => rfl
  | none =>
    rcases key.mp hh with hle | hall
    · omega
    · have hmem : buf.getD i 0 ∈ buf.drop (p + 1) := by
        have hi2 : i - (p + 1) < (buf.drop (p + 1)).length := by
          rw [List.length_drop]; omega
        have hget : (buf.drop (p + 1))[i - (p + 1)] = buf.getD i 0 := by
          rw [List.getElem_drop, List.getD_eq_getElem?_getD]
          have e : p + 1 + (i - (p + 1)) = i := by omega
          simp only [e, List.getElem?_eq_getElem hi, Option.getD_some]
        rw [← hget]
        exact List.getElem_mem _
      exact absurd hbit (hall _ hmem)

/-- C12 at the buffers `{5}`, `{5, 0x80, 0x81}` (failure) and `{5, 0x80, 0x01}`
(success). -/
theorem getDescripterHeader_eq_none_witness :
    getDescripterHeader [5] 0 = none ∧ getDescripterHeader [5, 0x80, 0x81] 0 = none ∧
      (getDescripterHeader [5, 0x80, 0x01] 0).isSome = true :=
  ⟨by decide, by decide,
    (getDescripterHeader_eq_none [5, 0x80, 0x01] 0).2 2 (by decide) (by decide) (by decide)⟩


/-- C13: for every complete header with tag 3, whatever size it declares, any
3 bytes `b3` and any bytes `rest`, `parseMagicCookieAAC` on
`header ++ b3 ++ rest` has the outcome it has on `rest`; likewise for a header
with tag 4 followed by any 13 bytes. -/
theorem parseMagicCookieAAC_fixed_skip (h3 b3 h4 b13 rest out : List Nat) (s3 s4 : Nat)
    (H3 : IsHeader h3 3 s3) (hb3 : b3.length = 3)
    (H4 : IsHeader h4 4 s4) (hb13 : b13.length = 13) :
    parseMagicCookieAAC (h3 ++ b3 ++ rest) out = parseMagicCookieAAC rest out ∧
      parseMagicCookieAAC (h4 ++ b13 ++ rest) out = parseMagicCookieAAC rest out :=
  ⟨parseMagicCookieAAC_skip h3 b3 rest out 3 s3 H3 (Or.inl ⟨rfl, hb3⟩),
    parseMagicCookieAAC_skip h4 b13 rest out 4 s4 H4 (Or.inr (Or.inl ⟨rfl, hb13⟩))⟩

/-- C13 at a tag-3 header declaring 0x22 bytes and a tag-4 header declaring 1
byte, each before the cookie `{5, 1, 0x42}`. -/
theorem parseMagicCookieAAC_fixed_skip_witness :
    parseMagicCookieAAC ([3, 0x22] ++ [1, 2, 3] ++ [5, 1, 0x42]) [] =
        parseMagicCookieAAC [5, 1, 0x42] [] ∧
      parseMagicCookieAAC ([4, 1] ++ [1, 2, 3, 4, 5, 6, 7, 8, 9, 10, 11, 12, 13] ++
          [5, 1, 0x42]) [] = parseMagicCookieAAC [5, 1, 0x42] [] ∧
      parseMagicCookieAAC [5, 1, 0x42] [] = .returned [0x42] :=
  have h := parseMagicCookieAAC_fixed_skip [3, 0x22] [1, 2, 3] [4, 1]
    [1, 2, 3, 4, 5, 6, 7, 8, 9, 10, 11, 12, 13] [5, 1, 0x42] [] 0x22 1
    ⟨[], 0x22, rfl, by decide, by decide, by decide⟩ rfl
    ⟨[], 1, rfl, by decide, by decide, by decide⟩ rfl
  ⟨h.1, h.2, by decide⟩

/-- C14: for every tag other than 3, 4 and 5, every complete header with that
tag declaring size `s`, every body of exactly `s` bytes and every `rest`,
`parseMagicCookieAAC` on `header ++ body ++ rest` has the outcome it has on
`rest`, whatever the body holds. -/
theorem parseMagicCookieAAC_unknown_skip (hdr body rest out : List Nat) (t s : Nat)
    (H : IsHeader hdr t s) (ht3 : t ≠ 3) (ht4 : t ≠ 4) (ht5 : t ≠ 5)
    (hb : body.length = s) :
    parseMagicCookieAAC (hdr ++ body ++ rest) out = parseMagicCookieAAC rest out :=
  parseMagicCookieAAC_skip hdr body rest out t s H (Or.inr (Or.inr ⟨ht3, ht4, ht5, hb⟩))

/-- C14 at a tag-6 descriptor whose body `{5, 1, 0x99}` looks like a tag-5
descriptor: it is stepped over and the config `{0x42}` is returned. -/
theorem parseMagicCookieAAC_unknown_skip_witness :
    parseMagicCookieAAC ([6, 3] ++ [5, 1, 0x99] ++ [5, 1, 0x42]) [] =
        parseMagicCookieAAC [5, 1, 0x42] [] ∧
      parseMagicCookieAAC [5, 1, 0x42] [] = .returned [0x42] :=
  ⟨parseMagicCookieAAC_unknown_skip [6, 3] [5, 1, 0x99] [5, 1, 0x42] [] 6 3
      ⟨[], 3, rfl, by decide, by decide, by decide⟩ (by decide) (by decide) (by decide) rfl,
    by decide⟩

/-- C15: when `parseMagicCookieAAC` returns a config on a cookie `c` (so the
tag-5 payload lies inside `c`), it returns the same config on `c ++ t` for
every `t`. -/
theorem parseMagicCookieAAC_first_match (c t cfg out : List Nat)
    (h : parseMagicCookieAAC c out = .returned cfg) :
    parseMagicCookieAAC (c ++ t) out = .returned cfg := by
  unfold parseMagicCookieAAC at h ⊢
  rw [scanLoop_fuel c (c.length + 1) ((c ++ t).length + 1) 0 (by omega) (by omega) (by omega)
    (by rw [List.length_append]; omega)] at h
  exact scanLoop_append c t cfg _ 0 h

/-- C15 at the cookie `{5, 1, 0x42}` followed by a second tag-5 descriptor. -/
theorem parseMagicCookieAAC_first_match_witness :
    parseMagicCookieAAC [5, 1, 0x42] [] = .returned [0x42] ∧
      parseMagicCookieAAC ([5, 1, 0x42] ++ [5, 2, 0x11, 0x22]) [] = .returned [0x42] :=
  ⟨by decide,
    parseMagicCookieAAC_first_match [5, 1, 0x42] [5, 2, 0x11, 0x22] [0x42] [] (by decide)⟩

/-- C16: for every sampling_rate_index below 16, channel_config below 8 and
payload length `L` with `L + 7 < 8192`, the header `ADTSSink::writeSamples`
builds is exactly `FF, F1, 0x40 | index << 2 | channel >> 2,
(channel & 3) << 6 | (L+7) >> 11, ((L+7) >> 3) & 0xFF,
0x1F | ((L+7) & 7) << 5, FC`, followed in the output by the payload; the
reference parser reads back the index, the channel configuration and the
frame length `L + 7`; for index 4, channel configuration 2 and `L = 200` the
header is FF F1 50 80 19 FF FC with frame length 207. -/
theorem adtsHeader_exact (idx ch L : Nat) (hidx : idx < 16) (hch : ch < 8)
    (hL : L + 7 < 8192) :
    adtsHeader idx ch L =
        [0xFF, 0xF1, 0x40 ||| (idx <<< 2) ||| (ch >>> 2),
          ((ch &&& 3) <<< 6) ||| ((L + 7) >>> 11), ((L + 7) >>> 3) &&& 0xFF,
          0x1F ||| (((L + 7) &&& 7) <<< 5), 0xFC] ∧
      (∀ data : List Nat, data.length = L →
        writeSamples idx ch data =
          [0xFF, 0xF1, 0x40 ||| (idx <<< 2) ||| (ch >>> 2),
            ((ch &&& 3) <<< 6) ||| ((L + 7) >>> 11), ((L + 7) >>> 3) &&& 0xFF,
            0x1F ||| (((L + 7) &&& 7) <<< 5), 0xFC] ++ data) ∧
      adts_sampling_frequency_index (adtsHeader idx ch L) = idx ∧
      adts_channel_configuration (adtsHeader idx ch L) = ch ∧
      adts_aac_frame_length (adtsHeader idx ch L) = L + 7 ∧
      adtsHeader 4 2 200 = [0xFF, 0xF1, 0x50, 0x80, 0x19, 0xFF, 0xFC] ∧
      adts_aac_frame_length (adtsHeader 4 2 200) = 207 := by
  have hlay := adtsHeader_layout idx ch L hidx hch hL
  have hback := adtsHeader_parse_back idx ch L hidx hch hL
  refine ⟨hlay, ?_, hback.1, hback.2.1, hback.2.2, by decide, by decide⟩
  intro data hd
  unfold writeSamples
  rw [hd, hlay]

/-- C16 at index 11, channel configuration 7 and payload length 8184, the
largest that fits: the header is FF F1 6D C3 FF FF FC. -/
theorem adtsHeader_exact_witness :
    adtsHeader 11 7 8184 = [0xFF, 0xF1, 0x6D, 0xC3, 0xFF, 0xFF, 0xFC] ∧
      adts_aac_frame_length (adtsHeader 11 7 8184) = 8184 + 7 :=
  have h := adtsHeader_exact 11 7 8184 (by decide) (by decide) (by decide)
  ⟨h.1.trans (by decide), h.2.2.2.2.1⟩

/-- C17: `parseMagicCookieAAC` terminates on every cookie.  Every call of
`getDescripterHeader` that succeeds moves the cursor at least 2 bytes forward
and stays inside the cookie, and every dispatch branch leaves the cursor where
it is or further; so with `cookie.length / 2 + 1` calls of
`getDescripterHeader` allowed, that is at most `cookie.length / 2` passes
through the loop body and the last test of the loop condition, the loop has
ended, and in the outcome of `parseMagicCookieAAC`. -/
theorem parseMagicCookieAAC_terminates (cookie out : List Nat) :
    (∀ p h, getDescripterHeader cookie p = some h →
        p + 2 ≤ h.cursor ∧ h.cursor ≤ cookie.length ∧ h.cursor ≤ h.cursor + 3 ∧
          h.cursor ≤ h.cursor + 13 ∧ h.cursor ≤ h.cursor + h.size) ∧
      scanLoop cookie (cookie.length / 2 + 1) 0 ≠ .fuelExhausted ∧
      parseMagicCookieAAC cookie out = scanLoop cookie (cookie.length / 2 + 1) 0 ∧
      parseMagicCookieAAC cookie out ≠ .fuelExhausted := by
  have hne := scanLoop_ne_fuelExhausted_half cookie (cookie.length / 2 + 1) 0 (by omega)
    (by omega)
  have heq : parseMagicCookieAAC cookie out = scanLoop cookie (cookie.length / 2 + 1) 0 :=
    scanLoop_fuel_half cookie _ _ 0 (by omega) (by omega) (by omega) (by omega)
  refine ⟨?_, hne, heq, by rw [heq]; exact hne⟩
  intro p h hh
  have hb := getDescripterHeader_cursor cookie p h hh
  exact ⟨hb.1, hb.2, Nat.le_add_right _ _, Nat.le_add_right _ _, Nat.le_add_right _ _⟩

/-- C17 at the 8-byte cookie `{6, 0, 6, 0, 6, 0, 6, 0}`: four passes through
the loop body, then the throw. -/
theorem parseMagicCookieAAC_terminates_witness :
    scanLoop [6, 0, 6, 0, 6, 0, 6, 0] 4 0 = .fuelExhausted ∧
      scanLoop [6, 0, 6, 0, 6, 0, 6, 0] 5 0 = .thrown malformedCookie ∧
      parseMagicCookieAAC [6, 0, 6, 0, 6, 0, 6, 0] [] = .thrown malformedCookie :=
  ⟨by decide, by decide,
    ((parseMagicCookieAAC_terminates [6, 0, 6, 0, 6, 0, 6, 0] []).2.2.1).trans (by decide)⟩


/-! ## CompositeSource: lemmas -/

theorem writeAt_nil (buffer : List Nat) (off : Nat) : writeAt buffer off [] = buffer := by
  simp [writeAt]

theorem writeAt_length (buffer : List Nat) (off : Nat) (bytes : List Nat)
    (h : off + bytes.length ≤ buffer.length) :
    (writeAt buffer off bytes).length = buffer.length := by
  simp only [writeAt, List.length_append, List.length_take, List.length_drop]
  omega

/-- Two stores, the second right after the first, are one store of both. -/
theorem writeAt_writeAt (buffer : List Nat) (off : Nat) (a b : List Nat)
    (h : off + a.length ≤ buffer.length) :
    writeAt (writeAt buffer off a) (off + a.length) b = writeAt buffer off (a ++ b) := by
  have h1 : (buffer.take off).length = off := by
    rw [List.length_take]; omega
  have e1 : (buffer.take off ++ a ++ buffer.drop (off + a.length)).take (off + a.length) =
      buffer.take off ++ a := by
    rw [List.take_append_of_le_length (by rw [List.length_append, h1]), List.take_of_length_le]
    rw [List.length_append, h1]
  have e2 : (buffer.take off ++ a ++ buffer.drop (off + a.length)).drop (off + a.length + b.length) =
      buffer.drop (off + (a ++ b).length) := by
    have hl : (buffer.take off ++ a).length = off + a.length := by
      rw [List.length_append, h1]
    rw [List.drop_append_eq_append_drop, hl, List.drop_of_length_le (by omega), List.nil_append,
      List.drop_drop, List.length_append]
    congr 1
    omega
  unfold writeAt
  rw [e1, e2, List.append_assoc (buffer.take off) a b]

theorem flatten_length_const (L : List (List Nat)) (k : Nat) (h : ∀ f ∈ L, f.length = k) :
    L.flatten.length = L.length * k := by
  induction L with
  | nil => simp
  | cons f L ih =>
    rw [List.flatten_cons, List.length_append, List.length_cons,
      ih (fun g hg => h g (List.mem_cons_of_mem _ hg)), h f (List.mem_cons_self _ _)]
    rw [Nat.add_mul, Nat.one_mul, Nat.add_comm]

theorem ISource.remaining_advance (s : ISource) (n : Nat) :
    ISource.remaining { s with pos := s.pos + min n s.remaining.length } =
      s.remaining.drop n := by
  unfold ISource.remaining
  simp only
  rw [← List.drop_drop]
  rcases Nat.le_total n (s.frames.drop s.pos).length with h | h
  · rw [Nat.min_eq_left h]
  · rw [Nat.min_eq_right h, List.drop_of_length_le (Nat.le_refl _), List.drop_of_length_le h]

/-- A member source whose frames have `k` bytes each, reading into memory
with room for `nsamples` frames. -/
theorem ISource.readSamples_eq (s : ISource) (buffer : List Nat) (off n k : Nat)
    (hk : ∀ f ∈ s.frames, f.length = k) (hcap : off + n * k ≤ buffer.length) :
    s.readSamples buffer off n =
      .returned (min n s.remaining.length,
        { s with pos := s.pos + min n s.remaining.length },
        writeAt buffer off (s.remaining.take n).flatten) := by
  have hrem : ∀ f ∈ s.remaining.take n, f.length = k := fun f hf =>
    hk f (List.mem_of_mem_drop (List.mem_of_mem_take hf))
  have hlen := flatten_length_const _ k hrem
  have hle : (s.remaining.take n).length * k ≤ n * k :=
    Nat.mul_le_mul_right k (by rw [List.length_take]; exact Nat.min_le_left _ _)
  unfold ISource.readSamples
  simp only
  rw [if_pos (by rw [hlen]; omega), List.length_take]


theorem readSamplesAux_succ (fuel : Nat) (c : CompositeSource) (buffer : List Nat)
    (off nsamples : Nat) :
    CompositeSource.readSamplesAux (fuel + 1) c buffer off nsamples =
      if c.m_curpos = c.m_sources.length then .returned (0, c, buffer)
      else
        match c.m_sources.get? c.m_curpos with
        | none => .outOfBounds
        | some src =>
          match src.readSamples buffer off nsamples with
          | .returned (rc, src1, buffer1) =>
            if rc = nsamples then
              .returned (rc, { c with m_sources := c.m_sources.set c.m_curpos src1 }, buffer1)
            else if rc = 0 then
              CompositeSource.readSamplesAux fuel
                { m_sources := c.m_sources.set c.m_curpos src1, m_format := c.m_format,
                  m_curpos := c.m_curpos + 1 } buffer1 off nsamples
            else
              match CompositeSource.readSamplesAux fuel
                  { c with m_sources := c.m_sources.set c.m_curpos src1 } buffer1
                  (off + (rc * c.m_format.bytesPerFrame) % 2 ^ 64) (nsamples - rc) with
              | .returned (rc2, c2, buffer2) => .returned ((rc + rc2) % 2 ^ 64, c2, buffer2)
              | .thrown w => .thrown w
              | .outOfBounds => .outOfBounds
              | .fuelExhausted => .fuelExhausted
          | .thrown w => .thrown w
          | .outOfBounds => .outOfBounds
          | .fuelExhausted => .fuelExhausted := rfl

/-- One call on the sources `before ++ s :: t` with the position at `s`, after
the member source `s` has been read. -/
theorem readSamplesAux_at (fuel : Nat) (fmt : SampleFormat) (before t : List ISource)
    (s : ISource) (buffer : List Nat) (off n : Nat)
    (hk : ∀ f ∈ s.frames, f.length = fmt.bytesPerFrame)
    (hcap : off + n * fmt.bytesPerFrame ≤ buffer.length) :
    CompositeSource.readSamplesAux (fuel + 1) ⟨before ++ s :: t, fmt, before.length⟩ buffer off n =
      if min n s.remaining.length = n then
        .returned (min n s.remaining.length,
          ⟨before ++ { s with pos := s.pos + min n s.remaining.length } :: t, fmt,
            before.length⟩,
          writeAt buffer off (s.remaining.take n).flatten)
      else if min n s.remaining.length = 0 then
        CompositeSource.readSamplesAux fuel
          ⟨before ++ { s with pos := s.pos + min n s.remaining.length } :: t, fmt,
            before.length + 1⟩
          (writeAt buffer off (s.remaining.take n).flatten) off n
      else
        match CompositeSource.readSamplesAux fuel
            ⟨before ++ { s with pos := s.pos + min n s.remaining.length } :: t, fmt,
              before.length⟩
            (writeAt buffer off (s.remaining.take n).flatten)
            (off + (min n s.remaining.length * fmt.bytesPerFrame) % 2 ^ 64)
            (n - min n s.remaining.length) with
        | .returned (rc2, c2, buffer2) =>
          .returned ((min n s.remaining.length + rc2) % 2 ^ 64, c2, buffer2)
        | .thrown w => .thrown w
        | .outOfBounds => .outOfBounds
        | .fuelExhausted => .fuelExhausted := by
  have hne : ¬ before.length = (before ++ s :: t).length := by
    rw [List.length_append, List.length_cons]; omega
  have hget : (before ++ s :: t).get? before.length = some s := by
    rw [List.get?_eq_getElem?, List.getElem?_append_right (Nat.le_refl _), Nat.sub_self,
      List.getElem?_cons_zero]
  have hset : ∀ x, (before ++ s :: t).set before.length x = before ++ x :: t := by
    intro x
    simp
  rw [readSamplesAux_succ]
  simp only [hne, if_false, hget, ISource.readSamples_eq s buffer off n _ hk hcap, hset]


/-- The call at the end of the source list. -/
theorem readSamplesAux_end (fuel : Nat) (fmt : SampleFormat) (before : List ISource)
    (buffer : List Nat) (off n : Nat) :
    CompositeSource.readSamplesAux (fuel + 1) ⟨before ++ [], fmt, before.length⟩ buffer off n =
      .returned (0, ⟨before ++ [], fmt, before.length⟩, buffer) := by
  rw [readSamplesAux_succ]
  simp

/-- `readSamples` on sources of one frame size, the position at the start of
`l`: the frames returned are the first `n` of those left in `l`, stored from
`off` on without a gap. -/
theorem readSamplesAux_spec (fmt : SampleFormat) (fuel : Nat) :
    ∀ (before l : List ISource) (buffer : List Nat) (off n : Nat),
      (∀ s ∈ l, ∀ f ∈ s.frames, f.length = fmt.bytesPerFrame) →
      off + n * fmt.bytesPerFrame ≤ buffer.length → buffer.length < 2 ^ 64 → n < 2 ^ 64 →
      (2 * l.length + 1 ≤ fuel ∨
        (2 * l.length ≤ fuel ∧ ∃ s t, l = s :: t ∧ s.remaining = [])) →
      ∃ before1 l1,
        CompositeSource.readSamplesAux fuel ⟨before ++ l, fmt, before.length⟩ buffer off n =
          .returned (min n ((l.map ISource.remaining).flatten).length,
            ⟨before1 ++ l1, fmt, before1.length⟩,
            writeAt buffer off (((l.map ISource.remaining).flatten).take n).flatten) ∧
        (l1.map ISource.remaining).flatten = ((l.map ISource.remaining).flatten).drop n ∧
        (before1 ++ l1).map (fun s => (s.format, s.frames)) =
          (before ++ l).map (fun s => (s.format, s.frames)) ∧
        ((∀ s ∈ before, s.remaining = []) → ∀ s ∈ before1, s.remaining = []) := by
  induction fuel with
  | zero =>
    intro before l buffer off n _ _ _ _ hfuel
    rcases hfuel with h | ⟨h, s, t, rfl, _⟩
    · omega
    · simp only [List.length_cons] at h
      omega
  | succ fuel ih =>
    intro before l buffer off n hk hcap hbuf hn hfuel
    cases l with
    | nil =>
      refine ⟨before, [], ?_, ?_, rfl, fun h => h⟩
      · rw [readSamplesAux_end]
        simp [writeAt_nil]
      · simp
    | cons s t =>
      have hks : ∀ f ∈ s.frames, f.length = fmt.bytesPerFrame := hk s (List.mem_cons_self _ _)
      have hkt : ∀ x ∈ t, ∀ f ∈ x.frames, f.length = fmt.bytesPerFrame :=
        fun x hx => hk x (List.mem_cons_of_mem _ hx)
      have hrem1 := ISource.remaining_advance s n
      have hP : ((s :: t).map ISource.remaining).flatten =
          s.remaining ++ (t.map ISource.remaining).flatten := by
        simp
      rw [readSamplesAux_at fuel fmt before t s buffer off n hks hcap, hP]
      generalize hs1 : ({ s with pos := s.pos + min n s.remaining.length } : ISource) = s1 at *
      have hs1f : (s1.format, s1.frames) = (s.format, s.frames) := by
        rw [← hs1]
      generalize hPt : (t.map ISource.remaining).flatten = Pt at *
      generalize hR : s.remaining = R at *
      have hkR : ∀ f ∈ R, f.length = fmt.bytesPerFrame := by
        intro f hf
        rw [← hR] at hf
        exact hks f (List.mem_of_mem_drop hf)
      rcases Nat.lt_or_ge R.length n with hlt | hge
      · -- the source has fewer than `n` frames left
        have hmin : min n R.length = R.length := Nat.min_eq_right (Nat.le_of_lt hlt)
        have htake : R.take n = R := List.take_of_length_le (Nat.le_of_lt hlt)
        have hdrop : R.drop n = [] := List.drop_of_length_le (Nat.le_of_lt hlt)
        rw [hdrop] at hrem1
        rw [hmin, htake, if_neg (by omega)]
        rcases Nat.eq_zero_or_pos R.length with h0 | hpos
        · -- none left: the position moves on
          have hR0 : R = [] := List.length_eq_zero.mp h0
          subst hR0
          have e : before ++ s1 :: t = (before ++ [s1]) ++ t := by simp
          have el : before.length + 1 = (before ++ [s1]).length := by simp
          rw [if_pos h0, List.flatten_nil, writeAt_nil, e, el]
          obtain ⟨b1, l1, hres, hpend, hmap, hread⟩ :=
            ih (before ++ [s1]) t buffer off n hkt hcap hbuf hn (by
              left
              rcases hfuel with h | ⟨h, _⟩ <;> simp only [List.length_cons] at h <;> omega)
          refine ⟨b1, l1, ?_, ?_, ?_, ?_⟩
          · rw [hres, hPt]
            simp
          · rw [hpend, hPt]
            simp
          · rw [hmap]
            simp only [List.map_append, List.map_cons, List.map_nil, hs1f, List.append_assoc,
              List.singleton_append]
          · intro hb
            apply hread
            intro x hx
            rcases List.mem_append.mp hx with hx | hx
            · exact hb x hx
            · rw [List.mem_singleton.mp hx]
              exact hrem1
        · -- some left, fewer than asked for: the rest comes from a nested call
          have hbytes : R.flatten.length = R.length * fmt.bytesPerFrame :=
            flatten_length_const R _ hkR
          have hmul : R.length * fmt.bytesPerFrame ≤ n * fmt.bytesPerFrame :=
            Nat.mul_le_mul_right _ (Nat.le_of_lt hlt)
          have hsplit : n * fmt.bytesPerFrame =
              R.length * fmt.bytesPerFrame + (n - R.length) * fmt.bytesPerFrame := by
            rw [← Nat.add_mul]
            congr 1
            omega
          have hmod : (R.length * fmt.bytesPerFrame) % 2 ^ 64 = R.length * fmt.bytesPerFrame :=
            Nat.mod_eq_of_lt (by omega)
          have hlen1 : (writeAt buffer off R.flatten).length = buffer.length :=
            writeAt_length _ _ _ (by omega)
          rw [if_neg (by omega), hmod]
          obtain ⟨b1, l1, hres, hpend, hmap, hread⟩ :=
            ih before (s1 :: t) (writeAt buffer off R.flatten)
              (off + R.length * fmt.bytesPerFrame) (n - R.length)
              (by
                intro x hx f hf
                rcases List.mem_cons.mp hx with rfl | hx
                · have : x.frames = s.frames := congrArg Prod.snd hs1f
                  rw [this] at hf
                  exact hks f hf
                · exact hkt x hx f hf)
              (by rw [hlen1]; omega) (by rw [hlen1]; exact hbuf) (by omega)
              (by
                right
                refine ⟨?_, s1, t, rfl, hrem1⟩
                rcases hfuel with h | ⟨h, s', t', he, hs'⟩
                · simp only [List.length_cons] at h ⊢
                  omega
                · cases he
                  rw [hR] at hs'
                  rw [hs'] at hpos
                  simp at hpos)
          have hP1 : ((s1 :: t).map ISource.remaining).flatten = Pt := by
            simp [hrem1, hPt]
          rw [hP1] at hres hpend
          rw [hres]
          refine ⟨b1, l1, ?_, ?_, ?_, hread⟩
          · simp only
            have e1 : (R.length + min (n - R.length) Pt.length) % 2 ^ 64 =
                min n (R ++ Pt).length := by
              rw [List.length_append, Nat.mod_eq_of_lt (by omega)]
              omega
            have e2 : writeAt (writeAt buffer off R.flatten)
                (off + R.length * fmt.bytesPerFrame) (Pt.take (n - R.length)).flatten =
                writeAt buffer off ((R ++ Pt).take n).flatten := by
              rw [← hbytes, writeAt_writeAt _ _ _ _ (by omega), ← List.flatten_append,
                List.take_append_eq_append_take, htake]
            rw [e1, e2]
          · rw [hpend, List.drop_append_eq_append_drop, hdrop, List.nil_append]
          · rw [hmap]
            simp only [List.map_append, List.map_cons, hs1f]
      · -- the source has `n` frames left: they are returned
        have hmin : min n R.length = n := Nat.min_eq_left hge
        rw [hmin, if_pos rfl]
        refine ⟨before, s1 :: t, ?_, ?_, ?_, fun h => h⟩
        · rw [List.length_append, List.take_append_of_le_length hge]
          congr 2
          omega
        · simp only [List.map_cons, List.flatten_cons, hrem1, hPt]
          rw [List.drop_append_of_le_length hge]
        · simp only [List.map_append, List.map_cons, hs1f]


theorem CompositeSource.eq_split (c : CompositeSource) (h : c.m_curpos ≤ c.m_sources.length) :
    c = ⟨c.m_sources.take c.m_curpos ++ c.m_sources.drop c.m_curpos, c.m_format,
      (c.m_sources.take c.m_curpos).length⟩ := by
  cases c
  simp only [List.take_append_drop, List.length_take, CompositeSource.mk.injEq, true_and]
  simp only at h
  omega

theorem CompositeSource.length_eq_of_map (c c1 : CompositeSource)
    (h : c1.m_sources.map (fun s => (s.format, s.frames)) =
      c.m_sources.map (fun s => (s.format, s.frames))) : c1.length = c.length := by
  have key : ∀ (l : List ISource) (a : Nat),
      l.foldl (fun len s => (len + s.length) % 2 ^ 64) a =
        (l.map (fun s => (s.format, s.frames))).foldl
          (fun len q => (len + q.2.length) % 2 ^ 64) a := by
    intro l
    induction l with
    | nil => intro a; rfl
    | cons s t ih =>
      intro a
      simp only [List.foldl_cons, List.map_cons, ih]
      rfl
  unfold CompositeSource.length
  rw [key, key, h]

theorem CompositeSource.length_eq_sum (c : CompositeSource)
    (h : (c.m_sources.map ISource.length).sum < 2 ^ 64) :
    c.length = (c.m_sources.map ISource.length).sum := by
  have key : ∀ (l : List ISource) (a : Nat), a + (l.map ISource.length).sum < 2 ^ 64 →
      l.foldl (fun len s => (len + s.length) % 2 ^ 64) a = a + (l.map ISource.length).sum := by
    intro l
    induction l with
    | nil => intro a _; simp
    | cons s t ih =>
      intro a ha
      simp only [List.map_cons, List.sum_cons] at ha
      simp only [List.foldl_cons, List.map_cons, List.sum_cons]
      rw [Nat.mod_eq_of_lt (by omega), ih _ (by omega)]
      omega
  unfold CompositeSource.length
  rw [key _ 0 (by omega)]
  omega

theorem pending_unread (l : List ISource) (h : ∀ s ∈ l, s.pos = 0) :
    ((l.map ISource.remaining).flatten).length = (l.map ISource.length).sum := by
  induction l with
  | nil => rfl
  | cons s t ih =>
    have hs : s.remaining = s.frames := by
      unfold ISource.remaining
      rw [h s (List.mem_cons_self _ _)]
      rfl
    simp only [List.map_cons, List.flatten_cons, List.length_append, List.sum_cons, hs,
      ih (fun x hx => h x (List.mem_cons_of_mem _ hx))]
    rfl


theorem CompositeSource.pending_frame_size (c : CompositeSource) (hr : c.Ready) :
    ∀ f ∈ c.pending, f.length = c.m_format.bytesPerFrame := by
  intro f hf
  unfold CompositeSource.pending at hf
  obtain ⟨R, hR, hfR⟩ := List.mem_flatten.mp hf
  obtain ⟨s, hs, rfl⟩ := List.mem_map.mp hR
  have hsm : s ∈ c.m_sources := List.mem_of_mem_drop hs
  rw [← hr.format_eq s hsm]
  exact hr.frame_size s hsm f (List.mem_of_mem_drop hfR)

/-- One call of `readSamples` in a ready state, the memory having room for
`n` frames from `off` on. -/
theorem CompositeSource.readSamples_ready (c : CompositeSource) (buffer : List Nat)
    (off n : Nat) (hr : c.Ready)
    (hcap : off + n * c.m_format.bytesPerFrame ≤ buffer.length)
    (hbuf : buffer.length < 2 ^ 64) (hn : n < 2 ^ 64) :
    ∃ c1, c.readSamples buffer off n =
        .returned (min n c.pending.length, c1,
          writeAt buffer off (c.pending.take n).flatten) ∧
      c1.Ready ∧ c1.pending = c.pending.drop n ∧ c1.m_format = c.m_format ∧
      c1.length = c.length ∧
      (writeAt buffer off (c.pending.take n).flatten).length = buffer.length := by
  have hsplit := c.eq_split hr.curpos_le
  have hk : ∀ s ∈ c.m_sources.drop c.m_curpos, ∀ f ∈ s.frames,
      f.length = c.m_format.bytesPerFrame := by
    intro s hs f hf
    have hsm : s ∈ c.m_sources := List.mem_of_mem_drop hs
    rw [← hr.format_eq s hsm]
    exact hr.frame_size s hsm f hf
  obtain ⟨b1, l1, hres, hpend, hmap, hread⟩ :=
    readSamplesAux_spec c.m_format (2 * (c.m_sources.length - c.m_curpos) + 1)
      (c.m_sources.take c.m_curpos) (c.m_sources.drop c.m_curpos) buffer off n hk hcap hbuf hn
      (by left; rw [List.length_drop])
  rw [← hsplit] at hres
  have hmap1 : (b1 ++ l1).map (fun s => (s.format, s.frames)) =
      c.m_sources.map (fun s => (s.format, s.frames)) := by
    rw [hmap, List.take_append_drop]
  have hsame : ∀ s1 ∈ b1 ++ l1, ∃ s ∈ c.m_sources, s.format = s1.format ∧ s.frames = s1.frames := by
    intro s1 hs1
    have hm : (s1.format, s1.frames) ∈ (b1 ++ l1).map (fun s => (s.format, s.frames)) :=
      List.mem_map.mpr ⟨s1, hs1, rfl⟩
    rw [hmap1] at hm
    obtain ⟨s, hs, he⟩ := List.mem_map.mp hm
    exact ⟨s, hs, congrArg Prod.fst he, congrArg Prod.snd he⟩
  have hbytes : ((c.pending.take n).flatten).length ≤ n * c.m_format.bytesPerFrame := by
    rw [flatten_length_const _ c.m_format.bytesPerFrame
      (fun f hf => c.pending_frame_size hr f (List.mem_of_mem_take hf))]
    exact Nat.mul_le_mul_right _ (by rw [List.length_take]; exact Nat.min_le_left _ _)
  refine ⟨⟨b1 ++ l1, c.m_format, b1.length⟩, hres, ?_, ?_, rfl, ?_, ?_⟩
  · constructor
    · simp only [List.length_append]
      omega
    · intro s1 hs1
      obtain ⟨s, hs, hf, _⟩ := hsame s1 hs1
      rw [← hf]
      exact hr.format_eq s hs
    · intro s1 hs1 f hf
      obtain ⟨s, hs, hfm, hfr⟩ := hsame s1 hs1
      rw [← hfm]
      rw [← hfr] at hf
      exact hr.frame_size s hs f hf
    · simp only [List.take_left']
      exact hread hr.before_read
  · unfold CompositeSource.pending
    simp only [List.drop_left']
    exact hpend
  · exact CompositeSource.length_eq_of_map c _ hmap1
  · exact writeAt_length _ _ _ (by omega)

/-- Successive calls in a ready state return, in all, the frames asked for or
all the frames left, whichever is smaller. -/
theorem CompositeSource.readCalls_ready (ns : List Nat) :
    ∀ (c : CompositeSource) (buffer : List Nat), c.Ready → buffer.length < 2 ^ 64 →
      (∀ m ∈ ns, m * c.m_format.bytesPerFrame ≤ buffer.length ∧ m < 2 ^ 64) →
      ∃ rcs c2 buffer2, c.readCalls buffer ns = .returned (rcs, c2, buffer2) ∧
        rcs.sum = min ns.sum c.pending.length ∧ c2.length = c.length := by
  induction ns with
  | nil =>
    intro c buffer _ _ _
    exact ⟨[], c, buffer, rfl, by simp, rfl⟩
  | cons n ns ih =>
    intro c buffer hr hbuf hall
    have hn := hall n (List.mem_cons_self _ _)
    obtain ⟨c1, hres, hr1, hpend, hfmt, hlen, hbl⟩ :=
      c.readSamples_ready buffer 0 n hr (by omega) hbuf hn.2
    obtain ⟨rcs, c2, buffer2, hres2, hsum, hlen2⟩ :=
      ih c1 _ hr1 (by rw [hbl]; exact hbuf) (by
        intro m hm
        rw [hfmt, hbl]
        exact hall m (List.mem_cons_of_mem _ hm))
    refine ⟨min n c.pending.length :: rcs, c2, buffer2, ?_, ?_, hlen2.trans hlen⟩
    · rw [CompositeSource.readCalls, hres]
      simp only [hres2]
    · rw [List.sum_cons, List.sum_cons, hsum, hpend, List.length_drop]
      omega


theorem CompositeSource.addSource_first (c : CompositeSource) (src : ISource)
    (h : c.m_sources = []) :
    c.addSource src = (⟨[src], src.format, c.m_curpos⟩, .returned ()) := by
  unfold CompositeSource.addSource
  simp [h, ISource.getSampleFormat]

theorem CompositeSource.addSource_same (c : CompositeSource) (src : ISource)
    (h : c.m_sources ≠ []) (hf : src.format = c.m_format) :
    c.addSource src = (⟨c.m_sources ++ [src], c.m_format, c.m_curpos⟩, .returned ()) := by
  have hl : ¬ c.m_sources.length = 0 := fun h0 => h (List.length_eq_zero.mp h0)
  unfold CompositeSource.addSource
  simp [hl, ISource.getSampleFormat, hf]

theorem CompositeSource.addSource_different (c : CompositeSource) (src : ISource)
    (h : c.m_sources ≠ []) (hf : src.format ≠ c.m_format) :
    c.addSource src = (c, .thrown differentFormat) := by
  have hl : ¬ c.m_sources.length = 0 := fun h0 => h (List.length_eq_zero.mp h0)
  have hf2 : ¬ c.m_format = src.format := fun he => hf he.symm
  unfold CompositeSource.addSource
  simp [hl, ISource.getSampleFormat, hf2]

/-- `addSource` keeps every held source at the format `m_format`. -/
theorem CompositeSource.addSource_keeps (c : CompositeSource) (src : ISource)
    (h : ∀ s ∈ c.m_sources, s.format = c.m_format) :
    ∀ s ∈ (c.addSource src).1.m_sources, s.format = (c.addSource src).1.m_format := by
  by_cases he : c.m_sources = []
  · rw [c.addSource_first src he]
    intro s hs
    rw [List.mem_singleton.mp hs]
  · by_cases hf : src.format = c.m_format
    · rw [c.addSource_same src he hf]
      intro s hs
      rcases List.mem_append.mp hs with hs | hs
      · exact h s hs
      · rw [List.mem_singleton.mp hs]
        exact hf
    · rw [c.addSource_different src he hf]
      exact h

theorem CompositeSource.addSources_keeps (srcs : List ISource) :
    ∀ c : CompositeSource, (∀ s ∈ c.m_sources, s.format = c.m_format) →
      ∀ s ∈ (c.addSources srcs).m_sources, s.format = (c.addSources srcs).m_format := by
  induction srcs with
  | nil => intro c h; exact h
  | cons src rest ih =>
    intro c h
    exact ih (c.addSource src).1 (c.addSource_keeps src h)

/-- `addSource` of a source whose frames have `bytesPerFrame()` bytes keeps
the object ready for `readSamples`. -/
theorem CompositeSource.addSource_ready (c : CompositeSource) (src : ISource) (hr : c.Ready)
    (hsrc : ∀ f ∈ src.frames, f.length = src.format.bytesPerFrame) :
    (c.addSource src).1.Ready := by
  by_cases he : c.m_sources = []
  · have h0 : c.m_curpos = 0 := by
      have := hr.curpos_le
      rw [he] at this
      exact Nat.le_zero.mp this
    rw [c.addSource_first src he, h0]
    constructor
    · exact Nat.zero_le _
    · intro s hs
      rw [List.mem_singleton.mp hs]
    · intro s hs
      rw [List.mem_singleton.mp hs]
      exact hsrc
    · intro s hs
      simp at hs
  · by_cases hf : src.format = c.m_format
    · rw [c.addSource_same src he hf]
      constructor
      · simp only [List.length_append, List.length_singleton]
        have := hr.curpos_le
        omega
      · intro s hs
        rcases List.mem_append.mp hs with hs | hs
        · exact hr.format_eq s hs
        · rw [List.mem_singleton.mp hs]
          exact hf
      · intro s hs
        rcases List.mem_append.mp hs with hs | hs
        · exact hr.frame_size s hs
        · rw [List.mem_singleton.mp hs]
          exact hsrc
      · simp only [List.take_append_of_le_length hr.curpos_le]
        exact hr.before_read
    · rw [c.addSource_different src he hf]
      exact hr

/-! ## Claims on CompositeSource -/

/-- C18: with member sources that return `min(n, remaining)` of their next
frames, `CompositeSource::readSamples(buffer, n)`, called in a ready state
with room for `n` frames in the memory, returns (so it terminates) the number
`min(n, frames left from the position on)`; the memory afterwards holds
exactly the first that many frames left, in the order of the sources, stored
one after the other from `buffer` on, and is otherwise unchanged; the object
afterwards is ready again, has those frames no longer pending and the same
`length()`; the call returns 0 for `n > 0` only when every source is read to
the end; and over successive calls the frames returned total the frames asked
for or the frames left, whichever is smaller, which for unread sources is
`length()` once that many have been asked for. -/
theorem CompositeSource.readSamples_concat (c : CompositeSource) (buffer : List Nat)
    (off n : Nat) (hr : c.Ready)
    (hcap : off + n * c.m_format.bytesPerFrame ≤ buffer.length)
    (hbuf : buffer.length < 2 ^ 64) (hn : n < 2 ^ 64) :
    (∃ c1, c.readSamples buffer off n =
        .returned (min n c.pending.length, c1,
          writeAt buffer off (c.pending.take n).flatten) ∧
      c1.Ready ∧ c1.pending = c.pending.drop n ∧ c1.length = c.length) ∧
      (0 < n → min n c.pending.length = 0 → ∀ s ∈ c.m_sources, s.remaining = []) ∧
      (∀ ns : List Nat, (∀ m ∈ ns, m * c.m_format.bytesPerFrame ≤ buffer.length ∧ m < 2 ^ 64) →
        ∃ rcs c2 buffer2, c.readCalls buffer ns = .returned (rcs, c2, buffer2) ∧
          rcs.sum = min ns.sum c.pending.length ∧
          (c.m_curpos = 0 → (∀ s ∈ c.m_sources, s.pos = 0) →
            (c.m_sources.map ISource.length).sum < 2 ^ 64 → c.length ≤ ns.sum →
            rcs.sum = c.length)) := by
  refine ⟨?_, ?_, ?_⟩
  · obtain ⟨c1, hres, hr1, hpend, _, hlen, _⟩ := c.readSamples_ready buffer off n hr hcap hbuf hn
    exact ⟨c1, hres, hr1, hpend, hlen⟩
  · intro hpos hzero s hs
    have hnil : c.pending = [] := by
      apply List.length_eq_zero.mp
      omega
    have hsplit : c.m_sources = c.m_sources.take c.m_curpos ++ c.m_sources.drop c.m_curpos :=
      (List.take_append_drop _ _).symm
    rw [hsplit] at hs
    rcases List.mem_append.mp hs with hs | hs
    · exact hr.before_read s hs
    · unfold CompositeSource.pending at hnil
      exact List.flatten_eq_nil_iff.mp hnil _ (List.mem_map.mpr ⟨s, hs, rfl⟩)
  · intro ns hall
    obtain ⟨rcs, c2, buffer2, hres, hsum, _⟩ := CompositeSource.readCalls_ready ns c buffer hr hbuf hall
    refine ⟨rcs, c2, buffer2, hres, hsum, ?_⟩
    intro h0 hunread htot hle
    have hp : c.pending.length = (c.m_sources.map ISource.length).sum := by
      unfold CompositeSource.pending
      rw [h0, List.drop_zero]
      exact pending_unread _ hunread
    rw [hsum, hp, c.length_eq_sum htot]
    rw [c.length_eq_sum htot] at hle
    omega

/-- C18 at three sources of 3, 0 and 2 two-byte frames, added by `addSource`
to an empty composite: a call for 4 frames at byte offset 2 of a 12-byte
memory returns 4 and stores the three frames of the first source and the first
frame of the third. -/
theorem CompositeSource.readSamples_concat_witness :
    (CompositeSource.addSources ⟨[], ⟨0, 0⟩, 0⟩
        [⟨⟨1, 2⟩, [[1, 2], [3, 4], [5, 6]], 0⟩, ⟨⟨1, 2⟩, [], 0⟩,
          ⟨⟨1, 2⟩, [[7, 8], [9, 10]], 0⟩]).Ready ∧
      (∃ c1, (CompositeSource.addSources ⟨[], ⟨0, 0⟩, 0⟩
          [⟨⟨1, 2⟩, [[1, 2], [3, 4], [5, 6]], 0⟩, ⟨⟨1, 2⟩, [], 0⟩,
            ⟨⟨1, 2⟩, [[7, 8], [9, 10]], 0⟩]).readSamples
          [0, 0, 0, 0, 0, 0, 0, 0, 0, 0, 0, 0] 2 4 =
        .returned (4, c1, [0, 0, 1, 2, 3, 4, 5, 6, 7, 8, 0, 0])) :=
  have hready : (CompositeSource.addSources ⟨[], ⟨0, 0⟩, 0⟩
      [⟨⟨1, 2⟩, [[1, 2], [3, 4], [5, 6]], 0⟩, ⟨⟨1, 2⟩, [], 0⟩,
        ⟨⟨1, 2⟩, [[7, 8], [9, 10]], 0⟩]).Ready :=
    ⟨by decide, by decide, by decide, by decide⟩
  have hcount : min 4 (CompositeSource.addSources ⟨[], ⟨0, 0⟩, 0⟩
      [⟨⟨1, 2⟩, [[1, 2], [3, 4], [5, 6]], 0⟩, ⟨⟨1, 2⟩, [], 0⟩,
        ⟨⟨1, 2⟩, [[7, 8], [9, 10]], 0⟩]).pending.length = 4 := by decide
  have hmem : writeAt [0, 0, 0, 0, 0, 0, 0, 0, 0, 0, 0, 0] 2
      ((CompositeSource.addSources ⟨[], ⟨0, 0⟩, 0⟩
        [⟨⟨1, 2⟩, [[1, 2], [3, 4], [5, 6]], 0⟩, ⟨⟨1, 2⟩, [], 0⟩,
          ⟨⟨1, 2⟩, [[7, 8], [9, 10]], 0⟩]).pending.take 4).flatten =
      [0, 0, 1, 2, 3, 4, 5, 6, 7, 8, 0, 0] := by decide
  ⟨hready,
    (CompositeSource.readSamples_concat _ [0, 0, 0, 0, 0, 0, 0, 0, 0, 0, 0, 0] 2 4 hready
      (by decide) (by decide) (by decide)).1.imp fun _ h => by rw [h.1, hcount, hmem]⟩

/-- C19: `addSource` on a composite holding no source sets `m_format` to the
format of the source and holds it; on a composite holding sources it appends
a source of the format `m_format` at the end, and for a source of another
format it throws and leaves the sources, `m_format` and the read position as
they were.  So a call keeps every held source at the format `m_format`, and so
does every sequence of calls that starts from a composite holding none. -/
theorem CompositeSource.addSource_invariant (c : CompositeSource) (src : ISource) :
    (c.m_sources = [] →
        c.addSource src = (⟨[src], src.format, c.m_curpos⟩, .returned ())) ∧
      (c.m_sources ≠ [] → src.format = c.m_format →
        c.addSource src = (⟨c.m_sources ++ [src], c.m_format, c.m_curpos⟩, .returned ())) ∧
      (c.m_sources ≠ [] → src.format ≠ c.m_format →
        c.addSource src = (c, .thrown differentFormat)) ∧
      ((∀ s ∈ c.m_sources, s.format = c.m_format) →
        ∀ s ∈ (c.addSource src).1.m_sources, s.format = (c.addSource src).1.m_format) ∧
      (∀ (srcs : List ISource) (fmt0 : SampleFormat) (pos0 : Nat),
        ∀ s ∈ (CompositeSource.addSources ⟨[], fmt0, pos0⟩ srcs).m_sources,
          s.format = (CompositeSource.addSources ⟨[], fmt0, pos0⟩ srcs).m_format) :=
  ⟨c.addSource_first src, c.addSource_same src, c.addSource_different src,
    c.addSource_keeps src,
    fun srcs fmt0 pos0 =>
      CompositeSource.addSources_keeps srcs ⟨[], fmt0, pos0⟩ (fun s hs => by simp at hs)⟩

/-- C19 at a composite holding one source of format `(1, 2)`: a source of
format `(2, 2)` is refused and the composite is as before. -/
theorem CompositeSource.addSource_invariant_witness :
    CompositeSource.addSource ⟨[⟨⟨1, 2⟩, [[1, 2]], 0⟩], ⟨1, 2⟩, 0⟩ ⟨⟨2, 2⟩, [[3, 4]], 0⟩ =
      (⟨[⟨⟨1, 2⟩, [[1, 2]], 0⟩], ⟨1, 2⟩, 0⟩, .thrown differentFormat) :=
  (CompositeSource.addSource_invariant ⟨[⟨⟨1, 2⟩, [[1, 2]], 0⟩], ⟨1, 2⟩, 0⟩
    ⟨⟨2, 2⟩, [[3, 4]], 0⟩).2.2.1 (by decide) (by decide)

end Qaac
